import Mathlib

/-!
# Verification of the Fivegram mapping and synchronization engine

This file shallowly embeds the core of the Fivegram repository (a Telegram
private-message relay running on Cloudflare Workers) in Lean 4 and proves,
corrects, or refutes the frozen specification claims about it.

The embedded source units are:

* `src/metadataManager.js` — the Metadata Codec (`parseMetadataText`,
  `stringifyMetadata`, `trimMetadataEntries`), the Mapping Store operations
  (`upsertMapping`, `removeMapping`, `markBan`) and the key-value
  Message-Index Store (`addMessageMappingKV`, `findTopicMessageIdKV`,
  `findPmMessageIdKV`, `saveMappingsToKV`, `cleanupTopicMessages`);
* `src/banManager.js` — `isTopicBanned`;
* `src/messageHandler.js` — `isSupergroupAdmin` (the decision on the
  gateway's `getChatMember` answer);
* `src/topicManager.js` — `ensureTopic` and `forwardPrivateToTopic`,
  modelled as state-passing functions over an explicit remote-gateway
  environment, with a fuel parameter standing for the JS call stack.

Modelling conventions:

* JavaScript `Map` objects are insertion-ordered association lists with
  pairwise-distinct keys (`mapGet?` / `mapSet` / `mapDelete` reproduce
  `Map.get` / `Map.set` / `Map.delete`, including the fact that `set` on an
  existing key keeps its position and `set` on a fresh key appends).
* JavaScript strings are Lean `String`s; the codec works on their character
  lists.  `text.split(c)`, `Array.join(c)`, `parseInt(s, 10)` and truthiness
  tests (`if (x)` on numbers, strings and possibly-undefined values) are
  reproduced by `splitOnChar`, `joinChar`, `jsParseIntChars`, `optTruthy`
  and explicit emptiness tests.  JS numbers are idealized as unbounded
  integers printed in decimal.
* Remote calls return `{ok, description?, result?}` records; the engine's
  substring matching on `description` is reproduced literally.
-/

namespace Fivegram

/-! ## JavaScript primitives: decimal printing, parseInt, split and join -/

/-- Fuel-driven decimal printer for naturals (fuel `n + 1` always suffices);
mirrors how JavaScript prints an integral number in base 10. -/
def natToCharsAux : Nat → Nat → List Char
  | 0, _ => []
  | fuel + 1, n =>
    if n < 10 then [Nat.digitChar n]
    else natToCharsAux fuel (n / 10) ++ [Nat.digitChar (n % 10)]

/-- Decimal digit list of a natural number. -/
def natToChars (n : Nat) : List Char := natToCharsAux (n + 1) n

/-- Decimal digit list of an integer (`-` prefix for negatives), as produced
by JavaScript string coercion of an integral number. -/
def intToChars (i : Int) : List Char :=
  match i with
  | .ofNat n => natToChars n
  | .negSucc n => '-' :: natToChars (n + 1)

/-- JavaScript decimal rendering of an integer as a `String`. -/
def intToString (i : Int) : String := String.mk (intToChars i)

/-- The whitespace characters skipped by JavaScript `parseInt`. -/
def isJsSpace (c : Char) : Bool :=
  c = ' ' || c = '\t' || c = '\n' || c = '\r' || c = '\x0b' || c = '\x0c'

/-- Numeric value of the longest digit prefix; `none` when there is no
digit, matching `parseInt` returning `NaN`. -/
def parseDigitsPrefix (cs : List Char) : Option Nat :=
  let ds := cs.takeWhile Char.isDigit
  if ds = [] then none
  else some (ds.foldl (fun a c => a * 10 + (c.toNat - '0'.toNat)) 0)

/-- JavaScript `parseInt(s, 10)` on a character list: skip whitespace, read
an optional sign, then the longest digit prefix; `none` models `NaN`
(an empty input has no digit prefix, hence is `NaN`). -/
def jsParseIntChars (cs : List Char) : Option Int :=
  match cs.dropWhile isJsSpace with
  | [] => none
  | c :: rest =>
    if c = '-' then (parseDigitsPrefix rest).map (fun n => -(n : Int))
    else if c = '+' then (parseDigitsPrefix rest).map (fun n => (n : Int))
    else (parseDigitsPrefix (c :: rest)).map (fun n => (n : Int))

/-- JavaScript `parseInt(s, 10)` on a `String`. -/
def jsParseInt (s : String) : Option Int := jsParseIntChars s.data

/-- `text.split(sep)` for a one-character separator, with accumulator. -/
def splitOnCharAux (c : Char) : List Char → List Char → List (List Char)
  | [], acc => [acc.reverse]
  | x :: xs, acc =>
    if x = c then acc.reverse :: splitOnCharAux c xs []
    else splitOnCharAux c xs (x :: acc)

/-- JavaScript `text.split(sep)` for a one-character separator. -/
def splitOnChar (c : Char) (cs : List Char) : List (List Char) :=
  splitOnCharAux c cs []

/-- JavaScript `parts.join(sep)` for a one-character separator. -/
def joinChar (c : Char) : List (List Char) → List Char
  | [] => []
  | [p] => p
  | p :: q :: ps => p ++ c :: joinChar c (q :: ps)

/-! ### Lemmas about the decimal printer -/

theorem natToCharsAux_mono :
    ∀ f₁ f₂ n, n < f₁ → n < f₂ → natToCharsAux f₁ n = natToCharsAux f₂ n := by
  intro f₁
  induction f₁ with
  | zero => intro f₂ n h; omega
  | succ f ih =>
    intro f₂ n h₁ h₂
    cases f₂ with
    | zero => omega
    | succ f' =>
      simp only [natToCharsAux]
      by_cases h10 : n < 10
      · simp [h10]
      · simp only [h10, if_false]
        have hd : n / 10 < n := Nat.div_lt_self (by omega) (by omega)
        rw [ih f' (n / 10) (by omega) (by omega)]

theorem natToChars_ge10 (n : Nat) (h : ¬ n < 10) :
    natToChars n = natToChars (n / 10) ++ [Nat.digitChar (n % 10)] := by
  have hd : n / 10 < n := Nat.div_lt_self (by omega) (by omega)
  show natToCharsAux (n + 1) n = _
  conv_lhs => rw [natToCharsAux]
  rw [if_neg h, natToCharsAux_mono n (n / 10 + 1) (n / 10) (by omega) (by omega)]
  rfl

theorem natToChars_lt10 (n : Nat) (h : n < 10) :
    natToChars n = [Nat.digitChar n] := by
  simp [natToChars, natToCharsAux, h]

theorem digitChar_isDigit (d : Nat) (h : d < 10) : (Nat.digitChar d).isDigit := by
  interval_cases d <;> decide

theorem digitChar_val (d : Nat) (h : d < 10) :
    (Nat.digitChar d).toNat - '0'.toNat = d := by
  interval_cases d <;> decide

theorem natToChars_ne_nil (n : Nat) : natToChars n ≠ [] := by
  induction n using Nat.strong_induction_on with
  | _ n ih =>
    by_cases h : n < 10
    · rw [natToChars_lt10 n h]; simp
    · rw [natToChars_ge10 n h]; simp

theorem natToChars_all_digits (n : Nat) :
    ∀ c ∈ natToChars n, c.isDigit := by
  induction n using Nat.strong_induction_on with
  | _ n ih =>
    by_cases h : n < 10
    · rw [natToChars_lt10 n h]
      intro c hc
      simp only [List.mem_singleton] at hc
      exact hc ▸ digitChar_isDigit n h
    · rw [natToChars_ge10 n h]
      intro c hc
      rcases List.mem_append.1 hc with h1 | h1
      · exact ih (n / 10) (Nat.div_lt_self (by omega) (by omega)) c h1
      · simp only [List.mem_singleton] at h1
        exact h1 ▸ digitChar_isDigit (n % 10) (Nat.mod_lt n (by omega))

theorem digitsVal_append (xs : List Char) (c : Char) (a : Nat) :
    (xs ++ [c]).foldl (fun a c => a * 10 + (c.toNat - '0'.toNat)) a
      = (xs.foldl (fun a c => a * 10 + (c.toNat - '0'.toNat)) a) * 10
        + (c.toNat - '0'.toNat) := by
  simp [List.foldl_append]

theorem natToChars_val (n : Nat) :
    (natToChars n).foldl (fun a c => a * 10 + (c.toNat - '0'.toNat)) 0 = n := by
  induction n using Nat.strong_induction_on with
  | _ n ih =>
    by_cases h : n < 10
    · rw [natToChars_lt10 n h]
      show 0 * 10 + ((Nat.digitChar n).toNat - '0'.toNat) = n
      rw [digitChar_val n h]
      omega
    · rw [natToChars_ge10 n h, digitsVal_append,
        ih (n / 10) (Nat.div_lt_self (by omega) (by omega)),
        digitChar_val (n % 10) (Nat.mod_lt n (by omega))]
      omega

theorem parseDigitsPrefix_natToChars (n : Nat) :
    parseDigitsPrefix (natToChars n) = some n := by
  have hall := natToChars_all_digits n
  have htake : (natToChars n).takeWhile Char.isDigit = natToChars n :=
    List.takeWhile_eq_self_iff.2 (by intro c hc; exact hall c hc)
  simp only [parseDigitsPrefix]
  rw [htake, if_neg (natToChars_ne_nil n), natToChars_val n]

theorem natToChars_head_digit (n : Nat) :
    ∃ c cs, natToChars n = c :: cs ∧ c.isDigit := by
  cases h : natToChars n with
  | nil => exact absurd h (natToChars_ne_nil n)
  | cons c cs =>
    exact ⟨c, cs, rfl, natToChars_all_digits n c (h ▸ List.mem_cons_self c cs)⟩

theorem isDigit_not_space (c : Char) (h : c.isDigit) : isJsSpace c = false := by
  cases hsp : isJsSpace c
  · rfl
  · exfalso
    simp only [isJsSpace, Bool.or_eq_true, decide_eq_true_eq] at hsp
    rcases hsp with ((((h1 | h1) | h1) | h1) | h1) | h1 <;>
      (subst h1; revert h; decide)

theorem isDigit_ne_sign (c : Char) (h : c.isDigit) : c ≠ '-' ∧ c ≠ '+' := by
  constructor <;> (intro he; subst he; revert h; decide)

theorem jsParseIntChars_digitHead (c : Char) (cs : List Char) (h : c.isDigit) :
    jsParseIntChars (c :: cs)
      = (parseDigitsPrefix (c :: cs)).map (fun n => (n : Int)) := by
  have hns := isDigit_not_space c h
  obtain ⟨hm, hp⟩ := isDigit_ne_sign c h
  have hdw : (c :: cs).dropWhile isJsSpace = c :: cs := by
    rw [List.dropWhile_cons, hns]
    simp
  simp only [jsParseIntChars, hdw, if_neg hm, if_neg hp]

theorem jsParseIntChars_intToChars (i : Int) :
    jsParseIntChars (intToChars i) = some i := by
  cases i with
  | ofNat n =>
    obtain ⟨c, cs, hcons, hdig⟩ := natToChars_head_digit n
    show jsParseIntChars (natToChars n) = some (Int.ofNat n)
    rw [hcons, jsParseIntChars_digitHead c cs hdig, ← hcons,
      parseDigitsPrefix_natToChars n]
    rfl
  | negSucc n =>
    show jsParseIntChars ('-' :: natToChars (n + 1)) = some (Int.negSucc n)
    have hdw : ('-' :: natToChars (n + 1)).dropWhile isJsSpace
        = '-' :: natToChars (n + 1) := by
      rw [List.dropWhile_cons]
      simp [isJsSpace]
    simp only [jsParseIntChars, hdw, parseDigitsPrefix_natToChars (n + 1)]
    simp [Int.negSucc_eq]

theorem intToChars_injective : Function.Injective intToChars := by
  intro a b h
  have ha := jsParseIntChars_intToChars a
  rw [h, jsParseIntChars_intToChars b] at ha
  exact (Option.some_inj.1 ha).symm

theorem intToString_injective : Function.Injective intToString := by
  intro a b h
  exact intToChars_injective (congrArg String.data h)

/-! ### Lemmas about split and join -/

theorem splitOnCharAux_nosep (c : Char) (xs : List Char) :
    ∀ acc, c ∉ xs → splitOnCharAux c xs acc = [acc.reverse ++ xs] := by
  induction xs with
  | nil => intro acc _; simp [splitOnCharAux]
  | cons x xs ih =>
    intro acc h
    have hx : ¬ x = c := fun he => h (he ▸ List.mem_cons_self x xs)
    simp only [splitOnCharAux, if_neg hx]
    rw [ih (x :: acc) (fun hm => h (List.mem_cons_of_mem x hm))]
    simp

theorem splitOnChar_nosep (c : Char) (xs : List Char) (h : c ∉ xs) :
    splitOnChar c xs = [xs] := by
  simpa using splitOnCharAux_nosep c xs [] h

theorem splitOnCharAux_sep (c : Char) (xs : List Char) :
    ∀ acc ys, c ∉ xs →
      splitOnCharAux c (xs ++ c :: ys) acc
        = (acc.reverse ++ xs) :: splitOnChar c ys := by
  induction xs with
  | nil =>
    intro acc ys _
    simp [splitOnCharAux, splitOnChar]
  | cons x xs ih =>
    intro acc ys h
    have hx : ¬ x = c := fun he => h (he ▸ List.mem_cons_self x xs)
    simp only [List.cons_append, splitOnCharAux, if_neg hx]
    show splitOnCharAux c (xs ++ c :: ys) (x :: acc) = _
    rw [ih (x :: acc) ys (fun hm => h (List.mem_cons_of_mem x hm))]
    simp

theorem splitOnChar_join (c : Char) (parts : List (List Char))
    (hne : parts ≠ []) (h : ∀ p ∈ parts, c ∉ p) :
    splitOnChar c (joinChar c parts) = parts := by
  induction parts with
  | nil => exact absurd rfl hne
  | cons p ps ih =>
    cases ps with
    | nil =>
      show splitOnChar c p = [p]
      exact splitOnChar_nosep c p (h p (List.mem_cons_self p []))
    | cons q qs =>
      show splitOnChar c (p ++ c :: joinChar c (q :: qs)) = p :: q :: qs
      unfold splitOnChar
      rw [splitOnCharAux_sep c p [] (joinChar c (q :: qs))
        (h p (List.mem_cons_self p (q :: qs)))]
      simp only [List.reverse_nil, List.nil_append]
      rw [ih (by simp) (fun r hr => h r (List.mem_cons_of_mem p hr))]

theorem joinChar_length (c : Char) (p : List Char) (parts : List (List Char)) :
    (joinChar c (p :: parts)).length
      = p.length + (parts.map (fun q => q.length + 1)).sum := by
  induction parts generalizing p with
  | nil => simp [joinChar]
  | cons q qs ih =>
    show (p ++ c :: joinChar c (q :: qs)).length = _
    simp only [List.length_append, List.length_cons, ih q, List.map_cons,
      List.sum_cons]
    omega

/-! ## JavaScript `Map` objects as insertion-ordered association lists -/

/-- `Map.get`: value of the first (and, for genuine maps, only) entry whose
key matches; `none` models `undefined`. -/
def mapGet? {β : Type} (m : List (Int × β)) (k : Int) : Option β :=
  (m.find? (fun p => p.1 == k)).map (fun p => p.2)

/-- `Map.set`: update in place when the key is present (keeping its
insertion position), otherwise append at the end. -/
def mapSet {β : Type} (m : List (Int × β)) (k : Int) (v : β) : List (Int × β) :=
  if m.any (fun p => p.1 == k) then
    m.map (fun p => if p.1 == k then (k, v) else p)
  else m ++ [(k, v)]

/-- `Map.delete`: remove the entry with the given key. -/
def mapDelete {β : Type} (m : List (Int × β)) (k : Int) : List (Int × β) :=
  m.filter (fun p => p.1 != k)

/-- JavaScript truthiness of a possibly-undefined number: `undefined` and
`0` are falsy. -/
def optTruthy (o : Option Int) : Option Int :=
  match o with
  | some v => if v = 0 then none else some v
  | none => none

theorem mapGet?_some_mem {β : Type} {m : List (Int × β)} {k : Int} {v : β}
    (h : mapGet? m k = some v) : (k, v) ∈ m := by
  simp only [mapGet?, Option.map_eq_some'] at h
  obtain ⟨p, hp, hv⟩ := h
  have hk := List.find?_some hp
  have hm := List.mem_of_find?_eq_some hp
  simp only [beq_iff_eq] at hk
  have : p = (k, v) := by
    cases p
    simp only at hk hv
    simp [hk, hv]
  exact this ▸ hm

theorem mapGet?_eq_none {β : Type} {m : List (Int × β)} {k : Int} :
    mapGet? m k = none ↔ ∀ p ∈ m, p.1 ≠ k := by
  simp only [mapGet?, Option.map_eq_none', List.find?_eq_none, beq_iff_eq]

theorem mapGet?_cons {β : Type} (p : Int × β) (m : List (Int × β)) (k : Int) :
    mapGet? (p :: m) k = if p.1 = k then some p.2 else mapGet? m k := by
  by_cases hp : p.1 = k
  · have hb : (p.1 == k) = true := by simpa using hp
    simp [mapGet?, List.find?_cons, hb, if_pos hp]
  · have hb : (p.1 == k) = false := by simpa using hp
    simp [mapGet?, List.find?_cons, hb, if_neg hp]

theorem mapGet?_delete_self {β : Type} (m : List (Int × β)) (k : Int) :
    mapGet? (mapDelete m k) k = none := by
  rw [mapGet?_eq_none]
  intro p hp
  have := List.of_mem_filter hp
  simpa using this

theorem mapGet?_delete_other {β : Type} (m : List (Int × β)) (k k' : Int)
    (h : k' ≠ k) : mapGet? (mapDelete m k) k' = mapGet? m k' := by
  induction m with
  | nil => rfl
  | cons p m ih =>
    by_cases hpk : p.1 = k
    · have hb : (p.1 != k) = false := by simp [hpk]
      simp only [mapDelete, List.filter_cons, hb, Bool.false_eq_true, if_false]
      rw [show List.filter (fun p => p.1 != k) m = mapDelete m k from rfl, ih,
        mapGet?_cons, if_neg (fun he : p.1 = k' => h (he ▸ hpk))]
    · have hb : (p.1 != k) = true := by simp [hpk]
      simp only [mapDelete, List.filter_cons, hb, if_true]
      rw [mapGet?_cons,
        show List.filter (fun p => p.1 != k) m = mapDelete m k from rfl]
      by_cases hpk' : p.1 = k'
      · rw [if_pos hpk', mapGet?_cons, if_pos hpk']
      · rw [if_neg hpk', ih, mapGet?_cons, if_neg hpk']

theorem mapSet_absent {β : Type} (m : List (Int × β)) (k : Int) (v : β)
    (h : mapGet? m k = none) : mapSet m k v = m ++ [(k, v)] := by
  have hany : ¬ m.any (fun p => p.1 == k) = true := by
    rw [mapGet?_eq_none] at h
    simp only [List.any_eq_true, beq_iff_eq, not_exists, not_and]
    intro p hp
    exact h p hp
  simp [mapSet, hany]

theorem mapGet?_append_of_some {β : Type} {m : List (Int × β)} {k : Int}
    {w : β} (l : List (Int × β)) (h : mapGet? m k = some w) :
    mapGet? (m ++ l) k = some w := by
  induction m with
  | nil => simp [mapGet?] at h
  | cons p m ih =>
    rw [mapGet?_cons] at h
    by_cases hp : p.1 = k
    · rw [List.cons_append, mapGet?_cons, if_pos hp]
      rwa [if_pos hp] at h
    · rw [List.cons_append, mapGet?_cons, if_neg hp]
      rw [if_neg hp] at h
      exact ih h

theorem mapGet?_append_of_none {β : Type} {m : List (Int × β)} {k : Int}
    (l : List (Int × β)) (h : mapGet? m k = none) :
    mapGet? (m ++ l) k = mapGet? l k := by
  induction m with
  | nil => rfl
  | cons p m ih =>
    rw [mapGet?_cons] at h
    by_cases hp : p.1 = k
    · rw [if_pos hp] at h; exact absurd h (by simp)
    · rw [if_neg hp] at h
      rw [List.cons_append, mapGet?_cons, if_neg hp]
      exact ih h

theorem mapGet?_set_absent {β : Type} (m : List (Int × β)) (k : Int) (v : β)
    (k' : Int) (h : mapGet? m k = none) :
    mapGet? (mapSet m k v) k' = if k' = k then some v else mapGet? m k' := by
  rw [mapSet_absent m k v h]
  by_cases hk : k' = k
  · subst hk
    rw [mapGet?_append_of_none _ h, if_pos rfl, mapGet?_cons, if_pos rfl]
  · rw [if_neg hk]
    cases hg : mapGet? m k' with
    | some w => exact mapGet?_append_of_some _ hg
    | none =>
      rw [mapGet?_append_of_none _ hg, mapGet?_cons,
        if_neg (fun he => hk he.symm)]
      rfl

/-! ## Data model: the metadata structure of `metadataManager.js`

The object returned by `parseMetadataText` and threaded through every store
operation: group id, both binding directions, blocked-topic keys (decimal
strings, as in the JS source), and both label ("comment") indices. -/

structure MetaData where
  superGroupChatId : Option Int
  topicToFromChat : List (Int × Int)
  fromChatToTopic : List (Int × Int)
  bannedTopics : List String
  topicToComment : List (Int × String)
  fromChatToComment : List (Int × String)
deriving Repr, DecidableEq

/-- The empty-but-valid structure produced for missing input. -/
def emptyMeta : MetaData :=
  { superGroupChatId := none
    topicToFromChat := []
    fromChatToTopic := []
    bannedTopics := []
    topicToComment := []
    fromChatToComment := [] }

/-- JavaScript truthiness of a possibly-undefined string: `undefined` and
`""` are falsy. -/
def strTruthy (o : Option String) : Bool :=
  match o with
  | some s => !s.isEmpty
  | none => false

/-- `upsertMapping` from `metadataManager.js`: set both binding directions;
when a (truthy) comment is supplied, set both label indices too. -/
def upsertMapping (data : MetaData) (topicId fromChatId : Int)
    (commentName : Option String) : MetaData :=
  let data :=
    { data with
      topicToFromChat := mapSet data.topicToFromChat topicId fromChatId
      fromChatToTopic := mapSet data.fromChatToTopic fromChatId topicId }
  if strTruthy commentName then
    { data with
      topicToComment := mapSet data.topicToComment topicId (commentName.getD "")
      fromChatToComment :=
        mapSet data.fromChatToComment fromChatId (commentName.getD "") }
  else data

/-- `markBan` from `metadataManager.js`: push the decimal topic key when
banning and it is absent; splice out its first occurrence when unbanning. -/
def markBan (data : MetaData) (topicId : Int) (banned : Bool) : MetaData :=
  let topicKey := intToString topicId
  let present := data.bannedTopics.contains topicKey
  if banned && !present then
    { data with bannedTopics := data.bannedTopics ++ [topicKey] }
  else if !banned && present then
    { data with bannedTopics := data.bannedTopics.erase topicKey }
  else data

/-- `removeMapping` from `metadataManager.js`.  Note the JS truthiness test
`if (fromChatId)`: the reverse indices are only cleaned when the bound user
chat id is truthy (defined and nonzero). -/
def removeMapping (data : MetaData) (topicId : Int) : MetaData :=
  let data :=
    match optTruthy (mapGet? data.topicToFromChat topicId) with
    | some fromChatId =>
      { data with
        fromChatToTopic := mapDelete data.fromChatToTopic fromChatId
        fromChatToComment := mapDelete data.fromChatToComment fromChatId }
    | none => data
  { data with
    topicToFromChat := mapDelete data.topicToFromChat topicId
    topicToComment := mapDelete data.topicToComment topicId
    bannedTopics := data.bannedTopics.erase (intToString topicId) }

/-- `isTopicBanned` from `banManager.js`: membership of the decimal topic
key in the blocked list. -/
def isTopicBanned (data : MetaData) (topicId : Int) : Bool :=
  data.bannedTopics.contains (intToString topicId)

/-! ### Well-formedness and the mutual-inverse invariant

`ValidMeta` records what the JavaScript runtime representation guarantees
structurally: `Map` keys are pairwise distinct, `markBan` keeps the blocked
list duplicate-free, and Telegram chat ids and forum-topic ids are nonzero
(`0` is not a valid id on either side; several code paths test ids for
truthiness). -/

def ValidMeta (d : MetaData) : Prop :=
  (d.topicToFromChat.map Prod.fst).Nodup ∧
  (d.fromChatToTopic.map Prod.fst).Nodup ∧
  (d.topicToComment.map Prod.fst).Nodup ∧
  (d.fromChatToComment.map Prod.fst).Nodup ∧
  d.bannedTopics.Nodup ∧
  (∀ p ∈ d.topicToFromChat, p.1 ≠ 0 ∧ p.2 ≠ 0) ∧
  (∀ p ∈ d.fromChatToTopic, p.1 ≠ 0 ∧ p.2 ≠ 0)

instance (d : MetaData) : Decidable (ValidMeta d) := by
  unfold ValidMeta
  infer_instance

/-- The mutual-inverse invariant on the two binding indices: topic `t` is
bound to user chat `u` exactly when user chat `u` is bound to topic `t`. -/
def MutualInv (d : MetaData) : Prop :=
  ∀ t u : Int,
    mapGet? d.topicToFromChat t = some u ↔ mapGet? d.fromChatToTopic u = some t

/-! ### Preservation lemmas for the store operations -/

theorem mapDelete_keys_nodup {β : Type} {m : List (Int × β)} {k : Int}
    (h : (m.map Prod.fst).Nodup) : ((mapDelete m k).map Prod.fst).Nodup :=
  h.sublist (List.Sublist.map Prod.fst (List.filter_sublist m))

theorem mapDelete_mem {β : Type} {m : List (Int × β)} {k : Int} {p : Int × β}
    (h : p ∈ mapDelete m k) : p ∈ m :=
  List.mem_of_mem_filter h

theorem mapSet_keys_nodup {β : Type} {m : List (Int × β)} {k : Int} {v : β}
    (h : (m.map Prod.fst).Nodup) : ((mapSet m k v).map Prod.fst).Nodup := by
  unfold mapSet
  split
  · rw [List.map_map]
    have heq : List.map (Prod.fst ∘ fun p => if p.1 == k then (k, v) else p) m
        = List.map Prod.fst m := by
      apply List.map_congr_left
      intro p _
      by_cases hpk : p.1 = k
      · simp [hpk]
      · simp [hpk]
    rw [heq]
    exact h
  · next hany =>
    have hk : k ∉ m.map Prod.fst := by
      intro hk
      obtain ⟨p, hp, he⟩ := List.mem_map.1 hk
      exact hany (List.any_eq_true.2 ⟨p, hp, by simp [he]⟩)
    rw [List.map_append]
    simp only [List.map_cons, List.map_nil]
    rw [List.nodup_append]
    refine ⟨h, List.nodup_singleton k, ?_⟩
    intro x hx hxa
    rw [List.mem_singleton] at hxa
    exact hk (hxa ▸ hx)

theorem nodup_push {α : Type} [DecidableEq α] {l : List α} {a : α}
    (h : l.Nodup) (ha : a ∉ l) : (l ++ [a]).Nodup := by
  rw [List.nodup_append]
  refine ⟨h, List.nodup_singleton a, ?_⟩
  intro x hx hxa
  rw [List.mem_singleton] at hxa
  exact ha (hxa ▸ hx)

theorem markBan_topicToFromChat (d : MetaData) (t : Int) (b : Bool) :
    (markBan d t b).topicToFromChat = d.topicToFromChat := by
  simp only [markBan]
  split
  · rfl
  · split <;> rfl

theorem markBan_fromChatToTopic (d : MetaData) (t : Int) (b : Bool) :
    (markBan d t b).fromChatToTopic = d.fromChatToTopic := by
  simp only [markBan]
  split
  · rfl
  · split <;> rfl

theorem markBan_preserves (d : MetaData) (hv : ValidMeta d) (hinv : MutualInv d)
    (t : Int) (b : Bool) :
    ValidMeta (markBan d t b) ∧ MutualInv (markBan d t b) := by
  obtain ⟨h1, h2, h3, h4, h5, h6, h7⟩ := hv
  constructor
  · simp only [markBan]
    split
    · next hc =>
      refine ⟨h1, h2, h3, h4, ?_, h6, h7⟩
      apply nodup_push h5
      simp only [Bool.and_eq_true, Bool.not_eq_true'] at hc
      intro hm
      have he : d.bannedTopics.contains (intToString t) = true :=
        List.elem_iff.mpr hm
      rw [he] at hc
      exact absurd hc.2 (by simp)
    · split
      · exact ⟨h1, h2, h3, h4, h5.erase _, h6, h7⟩
      · exact ⟨h1, h2, h3, h4, h5, h6, h7⟩
  · intro t' u'
    rw [markBan_topicToFromChat, markBan_fromChatToTopic]
    exact hinv t' u'

theorem valid_get_ttfc_nonzero {d : MetaData} (hv : ValidMeta d) {t u : Int}
    (h : mapGet? d.topicToFromChat t = some u) : u ≠ 0 :=
  (hv.2.2.2.2.2.1 _ (mapGet?_some_mem h)).2

theorem removeMapping_eq_of_bound (d : MetaData) (tid u0 : Int)
    (h : mapGet? d.topicToFromChat tid = some u0) (h0 : u0 ≠ 0) :
    removeMapping d tid =
      { d with
        topicToFromChat := mapDelete d.topicToFromChat tid
        fromChatToTopic := mapDelete d.fromChatToTopic u0
        topicToComment := mapDelete d.topicToComment tid
        fromChatToComment := mapDelete d.fromChatToComment u0
        bannedTopics := d.bannedTopics.erase (intToString tid) } := by
  unfold removeMapping
  rw [h]
  simp [optTruthy, h0]

theorem removeMapping_eq_of_unbound (d : MetaData) (tid : Int)
    (h : mapGet? d.topicToFromChat tid = none) :
    removeMapping d tid =
      { d with
        topicToFromChat := mapDelete d.topicToFromChat tid
        topicToComment := mapDelete d.topicToComment tid
        bannedTopics := d.bannedTopics.erase (intToString tid) } := by
  unfold removeMapping
  rw [h]
  rfl

theorem removeMapping_preserves (d : MetaData) (hv : ValidMeta d)
    (hinv : MutualInv d) (tid : Int) :
    ValidMeta (removeMapping d tid) ∧ MutualInv (removeMapping d tid) := by
  obtain ⟨h1, h2, h3, h4, h5, h6, h7⟩ := hv
  cases hget : mapGet? d.topicToFromChat tid with
  | some u0 =>
    have h0 : u0 ≠ 0 := valid_get_ttfc_nonzero ⟨h1, h2, h3, h4, h5, h6, h7⟩ hget
    rw [removeMapping_eq_of_bound d tid u0 hget h0]
    constructor
    · exact ⟨mapDelete_keys_nodup h1, mapDelete_keys_nodup h2,
        mapDelete_keys_nodup h3, mapDelete_keys_nodup h4, h5.erase _,
        fun p hp => h6 p (mapDelete_mem hp),
        fun p hp => h7 p (mapDelete_mem hp)⟩
    · intro t u
      by_cases ht : t = tid
      · subst ht
        simp only [mapGet?_delete_self]
        constructor
        · intro h; exact absurd h (by simp)
        · intro h
          by_cases hu : u = u0
          · subst hu
            rw [mapGet?_delete_self] at h
            exact absurd h (by simp)
          · rw [mapGet?_delete_other _ _ _ hu] at h
            have := (hinv t u).mpr h
            rw [hget] at this
            exact absurd (Option.some_inj.1 this).symm hu
      · simp only [mapGet?_delete_other _ _ _ ht]
        by_cases hu : u = u0
        · subst hu
          rw [mapGet?_delete_self]
          constructor
          · intro h
            have h' := (hinv t u).mp h
            have h'' := (hinv tid u).mp hget
            rw [h''] at h'
            exact (ht (Option.some_inj.1 h').symm).elim
          · intro h; exact absurd h (by simp)
        · rw [mapGet?_delete_other _ _ _ hu]
          exact hinv t u
  | none =>
    rw [removeMapping_eq_of_unbound d tid hget]
    constructor
    · exact ⟨mapDelete_keys_nodup h1, h2, mapDelete_keys_nodup h3, h4,
        h5.erase _, fun p hp => h6 p (mapDelete_mem hp), h7⟩
    · intro t u
      by_cases ht : t = tid
      · subst ht
        rw [mapGet?_delete_self]
        constructor
        · intro h; exact absurd h (by simp)
        · intro h
          have := (hinv t u).mpr h
          rw [hget] at this
          exact absurd this (by simp)
      · rw [mapGet?_delete_other _ _ _ ht]
        exact hinv t u

theorem upsertMapping_fresh_preserves (d : MetaData) (hv : ValidMeta d)
    (hinv : MutualInv d) (tid uid : Int) (c : Option String)
    (ht0 : tid ≠ 0) (hu0 : uid ≠ 0)
    (htf : mapGet? d.topicToFromChat tid = none)
    (hff : mapGet? d.fromChatToTopic uid = none) :
    ValidMeta (upsertMapping d tid uid c) ∧
      MutualInv (upsertMapping d tid uid c) := by
  obtain ⟨h1, h2, h3, h4, h5, h6, h7⟩ := hv
  have httfc : (upsertMapping d tid uid c).topicToFromChat
      = mapSet d.topicToFromChat tid uid := by
    unfold upsertMapping
    split <;> rfl
  have hfctt : (upsertMapping d tid uid c).fromChatToTopic
      = mapSet d.fromChatToTopic uid tid := by
    unfold upsertMapping
    split <;> rfl
  have hban : (upsertMapping d tid uid c).bannedTopics = d.bannedTopics := by
    unfold upsertMapping
    split <;> rfl
  constructor
  · refine ⟨?_, ?_, ?_, ?_, ?_, ?_, ?_⟩
    · rw [httfc]; exact mapSet_keys_nodup h1
    · rw [hfctt]; exact mapSet_keys_nodup h2
    · unfold upsertMapping
      split
      · exact mapSet_keys_nodup h3
      · exact h3
    · unfold upsertMapping
      split
      · exact mapSet_keys_nodup h4
      · exact h4
    · rw [hban]; exact h5
    · rw [httfc, mapSet_absent _ _ _ htf]
      intro p hp
      rcases List.mem_append.1 hp with hp | hp
      · exact h6 p hp
      · simp only [List.mem_singleton] at hp
        rw [hp]
        exact ⟨ht0, hu0⟩
    · rw [hfctt, mapSet_absent _ _ _ hff]
      intro p hp
      rcases List.mem_append.1 hp with hp | hp
      · exact h7 p hp
      · simp only [List.mem_singleton] at hp
        rw [hp]
        exact ⟨hu0, ht0⟩
  · intro t u
    rw [httfc, hfctt, mapGet?_set_absent _ _ _ _ htf,
      mapGet?_set_absent _ _ _ _ hff]
    by_cases ht : t = tid
    · subst ht
      by_cases hu : u = uid
      · subst hu
        simp
      · rw [if_pos rfl, if_neg hu]
        constructor
        · intro h
          exact absurd (Option.some_inj.1 h).symm hu
        · intro h
          have := (hinv t u).mpr h
          rw [htf] at this
          exact absurd this (by simp)
    · rw [if_neg ht]
      by_cases hu : u = uid
      · subst hu
        rw [if_pos rfl]
        constructor
        · intro h
          have := (hinv t u).mp h
          rw [hff] at this
          exact absurd this (by simp)
        · intro h
          exact absurd (Option.some_inj.1 h).symm ht
      · rw [if_neg hu]
        exact hinv t u

/-! ## Claim C1: invariant preservation by the store operations -/

/-- A mutually-inverse two-binding state: topics 1 ↔ chat 10, 2 ↔ chat 20. -/
def dPair : MetaData :=
  { superGroupChatId := some 1
    topicToFromChat := [(1, 10), (2, 20)]
    fromChatToTopic := [(10, 1), (20, 2)]
    bannedTopics := []
    topicToComment := []
    fromChatToComment := [] }

theorem dPair_mutualInv : MutualInv dPair := by
  intro t u
  show mapGet? [(1, 10), (2, 20)] t = some u
    ↔ mapGet? [(10, 1), (20, 2)] u = some t
  rw [mapGet?_cons, mapGet?_cons, mapGet?_cons, mapGet?_cons]
  constructor <;> intro h <;> split_ifs at h ⊢ <;> simp_all [mapGet?] <;> omega

/-- Claim C1, as stated, is false: on the mutually-inverse state `dPair`,
`upsertMapping` with topic 1 and user chat 20 (both already bound, to other
partners) leaves topic 2 mapped to chat 20 while chat 20 maps back to
topic 1, so the indices are no longer mutual inverses. -/
theorem claim1_counterexample :
    MutualInv dPair ∧ ValidMeta dPair ∧
      ¬ MutualInv (upsertMapping dPair 1 20 none) := by
  refine ⟨dPair_mutualInv, by decide, fun h => ?_⟩
  have h2 := (h 2 20).mp (by decide)
  exact absurd h2 (by decide)

/-- Claim C1 (corrected): on valid metadata satisfying the mutual-inverse
invariant, `markBan` and `removeMapping` preserve validity and the
invariant unconditionally, and `upsertMapping` preserves them whenever it
inserts a fresh binding (nonzero ids, neither the topic nor the user chat
already bound) — exactly the situation at its only call site, where
`ensureTopic` has checked that the user chat has no topic and the gateway
has just created a brand-new thread id.  Validity (`ValidMeta`) includes
key-uniqueness of both indices, so no user chat maps to two topics and no
topic to two user chats. -/
theorem claim1_theorem (d : MetaData) (hv : ValidMeta d) (hinv : MutualInv d) :
    (∀ tid b, ValidMeta (markBan d tid b) ∧ MutualInv (markBan d tid b)) ∧
    (∀ tid, ValidMeta (removeMapping d tid) ∧
      MutualInv (removeMapping d tid)) ∧
    (∀ tid uid c, tid ≠ 0 → uid ≠ 0 →
      mapGet? d.topicToFromChat tid = none →
      mapGet? d.fromChatToTopic uid = none →
      ValidMeta (upsertMapping d tid uid c) ∧
        MutualInv (upsertMapping d tid uid c)) :=
  ⟨fun tid b => markBan_preserves d hv hinv tid b,
   fun tid => removeMapping_preserves d hv hinv tid,
   fun tid uid c ht0 hu0 htf hff =>
     upsertMapping_fresh_preserves d hv hinv tid uid c ht0 hu0 htf hff⟩

theorem claim1_witness :
    ValidMeta dPair ∧ MutualInv dPair ∧
      (ValidMeta (markBan dPair 1 true) ∧ MutualInv (markBan dPair 1 true)) ∧
      (ValidMeta (removeMapping dPair 1) ∧
        MutualInv (removeMapping dPair 1)) ∧
      (ValidMeta (upsertMapping dPair 3 30 none) ∧
        MutualInv (upsertMapping dPair 3 30 none)) :=
  ⟨by decide, dPair_mutualInv,
   (claim1_theorem dPair (by decide) dPair_mutualInv).1 1 true,
   (claim1_theorem dPair (by decide) dPair_mutualInv).2.1 1,
   (claim1_theorem dPair (by decide) dPair_mutualInv).2.2 3 30 none
     (by decide) (by decide) (by decide) (by decide)⟩

/-! ## Claim C10: frame conditions of `removeMapping` -/

theorem erase_contains_other {l : List String} {a b : String} (h : b ≠ a) :
    (l.erase a).contains b = l.contains b := by
  cases hc : l.contains b with
  | true =>
    have hm : b ∈ l := List.elem_iff.mp hc
    exact List.elem_iff.mpr ((List.mem_erase_of_ne h).mpr hm)
  | false =>
    cases hc' : (l.erase a).contains b with
    | false => rfl
    | true =>
      have hm : b ∈ l.erase a := List.elem_iff.mp hc'
      have hbl : l.contains b = true :=
        List.elem_iff.mpr ((List.mem_erase_of_ne h).mp hm)
      rw [hc] at hbl
      exact hbl.symm

/-- Claim C10: `removeMapping d t` removes topic `t` from the
topic-to-user map, removes `t`'s bound user chat from the user-to-topic
and user-label maps, removes `t` from the topic-label map and from the
blocked-topics list, and leaves every entry keyed by any other topic or
user chat unchanged. -/
theorem claim10_theorem (d : MetaData) (tid : Int) (hv : ValidMeta d) :
    mapGet? (removeMapping d tid).topicToFromChat tid = none ∧
    mapGet? (removeMapping d tid).topicToComment tid = none ∧
    isTopicBanned (removeMapping d tid) tid = false ∧
    (∀ u, mapGet? d.topicToFromChat tid = some u →
      mapGet? (removeMapping d tid).fromChatToTopic u = none ∧
      mapGet? (removeMapping d tid).fromChatToComment u = none) ∧
    (∀ t', t' ≠ tid →
      mapGet? (removeMapping d tid).topicToFromChat t'
        = mapGet? d.topicToFromChat t' ∧
      mapGet? (removeMapping d tid).topicToComment t'
        = mapGet? d.topicToComment t' ∧
      isTopicBanned (removeMapping d tid) t' = isTopicBanned d t') ∧
    (∀ u', (∀ u, mapGet? d.topicToFromChat tid = some u → u' ≠ u) →
      mapGet? (removeMapping d tid).fromChatToTopic u'
        = mapGet? d.fromChatToTopic u' ∧
      mapGet? (removeMapping d tid).fromChatToComment u'
        = mapGet? d.fromChatToComment u') := by
  have hbanned : (removeMapping d tid).bannedTopics
      = d.bannedTopics.erase (intToString tid) := by
    unfold removeMapping
    cases optTruthy (mapGet? d.topicToFromChat tid) <;> rfl
  have httc : (removeMapping d tid).topicToComment
      = mapDelete d.topicToComment tid := by
    unfold removeMapping
    cases optTruthy (mapGet? d.topicToFromChat tid) <;> rfl
  have httfc : (removeMapping d tid).topicToFromChat
      = mapDelete d.topicToFromChat tid := by
    unfold removeMapping
    cases optTruthy (mapGet? d.topicToFromChat tid) <;> rfl
  refine ⟨?_, ?_, ?_, ?_, ?_, ?_⟩
  · rw [httfc, mapGet?_delete_self]
  · rw [httc, mapGet?_delete_self]
  · unfold isTopicBanned
    rw [hbanned]
    cases hc : (d.bannedTopics.erase (intToString tid)).contains
        (intToString tid) with
    | false => rfl
    | true =>
      have hm := List.elem_iff.mp hc
      exact absurd hm (hv.2.2.2.2.1.not_mem_erase)
  · intro u hu
    have h0 : u ≠ 0 := valid_get_ttfc_nonzero hv hu
    rw [removeMapping_eq_of_bound d tid u hu h0]
    exact ⟨mapGet?_delete_self _ _, mapGet?_delete_self _ _⟩
  · intro t' ht'
    refine ⟨?_, ?_, ?_⟩
    · rw [httfc, mapGet?_delete_other _ _ _ ht']
    · rw [httc, mapGet?_delete_other _ _ _ ht']
    · unfold isTopicBanned
      rw [hbanned]
      exact erase_contains_other
        (fun he => ht' (intToString_injective he))
  · intro u' hu'
    cases hget : mapGet? d.topicToFromChat tid with
    | some u =>
      have h0 : u ≠ 0 := valid_get_ttfc_nonzero hv hget
      rw [removeMapping_eq_of_bound d tid u hget h0]
      have hne : u' ≠ u := hu' u hget
      exact ⟨mapGet?_delete_other _ _ _ hne, mapGet?_delete_other _ _ _ hne⟩
    | none =>
      rw [removeMapping_eq_of_unbound d tid hget]
      exact ⟨rfl, rfl⟩

theorem claim10_witness :
    ValidMeta dPair ∧
      mapGet? (removeMapping dPair 1).topicToFromChat 1 = none ∧
      (∀ u, mapGet? dPair.topicToFromChat 1 = some u →
        mapGet? (removeMapping dPair 1).fromChatToTopic u = none) ∧
      mapGet? (removeMapping dPair 1).topicToFromChat 2
        = mapGet? dPair.topicToFromChat 2 := by
  have h := claim10_theorem dPair 1 (by decide)
  exact ⟨by decide, h.1, fun u hu => (h.2.2.2.1 u hu).1,
    (h.2.2.2.2.1 2 (by decide)).1⟩

/-! ## The key-value Message-Index Store

`addMessageMappingKV` / `findTopicMessageIdKV` / `findPmMessageIdKV` /
`cleanupTopicMessages` from `metadataManager.js`.  The KV value is the JSON
array of link records; we model it as the list itself, threaded through the
operations (load followed by put).  The JS downward `for` loop
(`for (let i = mappings.length - 1; i >= 0; i -= 1)`) is modelled as
`find?` on the reversed list: first match scanning from the most recent
entry.  The JS `{topicId: null, ...}` miss result is modelled as `none`. -/

structure MsgLink where
  topicId : Int
  topicMessageId : Int
  pmMessageId : Int
deriving Repr, DecidableEq

/-- `MAX_KV_MAPPINGS` from `metadataManager.js`. -/
def MAX_KV_MAPPINGS : Nat := 1000

/-- JavaScript `array.slice(-n)`: the last `n` elements (all of them when
the array is shorter). -/
def sliceLast {α : Type} (n : Nat) (l : List α) : List α :=
  l.drop (l.length - n)

/-- `saveMappingsToKV`: write the list, trimmed to the newest
`MAX_KV_MAPPINGS` entries (FIFO eviction). -/
def saveMappingsToKV (mappings : List MsgLink) : List MsgLink :=
  sliceLast MAX_KV_MAPPINGS mappings

/-- `addMessageMappingKV`: load, push the new link, save (with trim). -/
def addMessageMappingKV (st : List MsgLink)
    (topicId topicMessageId pmMessageId : Int) : List MsgLink :=
  saveMappingsToKV (st ++ [⟨topicId, topicMessageId, pmMessageId⟩])

/-- `findTopicMessageIdKV`: scan from the most recent link to the oldest;
return the topic id and topic-side message id of the first link whose
user-side (`pmMessageId`) id matches. -/
def findTopicMessageIdKV (mappings : List MsgLink) (pmMessageId : Int) :
    Option (Int × Int) :=
  (mappings.reverse.find? (fun e => e.pmMessageId == pmMessageId)).map
    (fun e => (e.topicId, e.topicMessageId))

/-- `findPmMessageIdKV`: scan from the most recent link to the oldest;
return the topic id and user-side message id of the first link whose
topic-side (`topicMessageId`) id matches. -/
def findPmMessageIdKV (mappings : List MsgLink) (topicMessageId : Int) :
    Option (Int × Int) :=
  (mappings.reverse.find? (fun e => e.topicMessageId == topicMessageId)).map
    (fun e => (e.topicId, e.pmMessageId))

/-- `cleanupTopicMessages`: drop every link of the given topic and save. -/
def cleanupTopicMessages (st : List MsgLink) (topicId : Int) : List MsgLink :=
  saveMappingsToKV (st.filter (fun m => m.topicId != topicId))

theorem sliceLast_append {α : Type} (n : Nat) (xs ys : List α) :
    sliceLast n (sliceLast n xs ++ ys) = sliceLast n (xs ++ ys) := by
  unfold sliceLast
  rw [← List.drop_append_of_le_length (Nat.sub_le xs.length n), List.drop_drop]
  congr 1
  simp only [List.length_drop, List.length_append]
  omega

theorem foldl_addMessageMappingKV (links : List MsgLink) :
    ∀ s : List MsgLink, links ≠ [] →
      links.foldl
        (fun st l => addMessageMappingKV st l.topicId l.topicMessageId
          l.pmMessageId) s
        = sliceLast MAX_KV_MAPPINGS (s ++ links) := by
  induction links with
  | nil => intro s hne; exact absurd rfl hne
  | cons l ls ih =>
    intro s _
    rw [List.foldl_cons]
    cases hls : ls with
    | nil =>
      rw [List.foldl_nil]
      cases l
      rfl
    | cons l2 ls2 =>
      rw [hls] at ih
      rw [ih _ (by simp)]
      cases l
      unfold addMessageMappingKV saveMappingsToKV
      rw [sliceLast_append]
      congr 1
      simp

theorem findTopicMessageIdKV_sound {ms : List MsgLink} {pm t m : Int}
    (h : findTopicMessageIdKV ms pm = some (t, m)) :
    (⟨t, m, pm⟩ : MsgLink) ∈ ms := by
  unfold findTopicMessageIdKV at h
  rw [Option.map_eq_some'] at h
  obtain ⟨e, he, hev⟩ := h
  have hpred := List.find?_some he
  have hmem := List.mem_reverse.1 (List.mem_of_find?_eq_some he)
  simp only [beq_iff_eq] at hpred
  have : e = (⟨t, m, pm⟩ : MsgLink) := by
    cases e
    simp only [Prod.mk.injEq] at hev
    simp_all
  exact this ▸ hmem

theorem findPmMessageIdKV_sound {ms : List MsgLink} {tm t p : Int}
    (h : findPmMessageIdKV ms tm = some (t, p)) :
    (⟨t, tm, p⟩ : MsgLink) ∈ ms := by
  unfold findPmMessageIdKV at h
  rw [Option.map_eq_some'] at h
  obtain ⟨e, he, hev⟩ := h
  have hpred := List.find?_some he
  have hmem := List.mem_reverse.1 (List.mem_of_find?_eq_some he)
  simp only [beq_iff_eq] at hpred
  have : e = (⟨t, tm, p⟩ : MsgLink) := by
    cases e
    simp only [Prod.mk.injEq] at hev
    simp_all
  exact this ▸ hmem

/-! ## Claim C5: capacity bound and FIFO eviction of the Message-Index -/

/-- Claim C5: appending more than 1000 links through `addMessageMappingKV`
(starting from an empty store) leaves exactly the 1000 most recent links —
the stored list is the length-1000 suffix of the append sequence, so the
oldest links are discarded first — and both lookups only ever return links
present in the stored (retained) list, never an evicted one. -/
theorem claim5_theorem (links : List MsgLink) (h : 1000 < links.length) :
    (links.foldl
        (fun st l => addMessageMappingKV st l.topicId l.topicMessageId
          l.pmMessageId) [])
      = links.drop (links.length - 1000) ∧
    (links.foldl
        (fun st l => addMessageMappingKV st l.topicId l.topicMessageId
          l.pmMessageId) []).length = 1000 ∧
    (∀ pm t m,
      findTopicMessageIdKV
        (links.foldl
          (fun st l => addMessageMappingKV st l.topicId l.topicMessageId
            l.pmMessageId) []) pm = some (t, m) →
      (⟨t, m, pm⟩ : MsgLink) ∈ links.drop (links.length - 1000)) ∧
    (∀ tm t p,
      findPmMessageIdKV
        (links.foldl
          (fun st l => addMessageMappingKV st l.topicId l.topicMessageId
            l.pmMessageId) []) tm = some (t, p) →
      (⟨t, tm, p⟩ : MsgLink) ∈ links.drop (links.length - 1000)) := by
  have hne : links ≠ [] := by
    intro he
    rw [he] at h
    simp at h
  have hst := foldl_addMessageMappingKV links [] hne
  rw [List.nil_append] at hst
  have hdrop : sliceLast MAX_KV_MAPPINGS links
      = links.drop (links.length - 1000) := rfl
  refine ⟨hst.trans hdrop, ?_, ?_, ?_⟩
  · rw [hst, hdrop]
    simp only [List.length_drop]
    omega
  · intro pm t m hf
    rw [hst, hdrop] at hf
    exact findTopicMessageIdKV_sound hf
  · intro tm t p hf
    rw [hst, hdrop] at hf
    exact findPmMessageIdKV_sound hf

/-- 1001 distinct links used to exercise the capacity bound. -/
def linksDemo : List MsgLink :=
  List.map
    (fun (i : Nat) =>
      { topicId := 1, topicMessageId := (i : Int), pmMessageId := (i : Int) })
    (List.range 1001)

theorem claim5_witness :
    1000 < linksDemo.length ∧
      (linksDemo.foldl
        (fun st l => addMessageMappingKV st l.topicId l.topicMessageId
          l.pmMessageId) []).length = 1000 := by
  have hlen : 1000 < linksDemo.length := by
    simp only [linksDemo, List.length_map, List.length_range]
    omega
  exact ⟨hlen, (claim5_theorem linksDemo hlen).2.1⟩

/-! ## Claim C6: most-recent-first lookup (last-write-wins) -/

/-- Claim C6: both lookups return the most recently inserted matching link
(so with duplicate ids the last-written link wins), and return `none`
(modelling the JS all-null record) instead of failing when nothing
matches. -/
theorem claim6_theorem (pre post : List MsgLink) (l : MsgLink) :
    (∀ pm, l.pmMessageId = pm → (∀ e ∈ post, e.pmMessageId ≠ pm) →
      findTopicMessageIdKV (pre ++ l :: post) pm
        = some (l.topicId, l.topicMessageId)) ∧
    (∀ pm, (∀ e ∈ pre ++ l :: post, e.pmMessageId ≠ pm) →
      findTopicMessageIdKV (pre ++ l :: post) pm = none) ∧
    (∀ tm, l.topicMessageId = tm → (∀ e ∈ post, e.topicMessageId ≠ tm) →
      findPmMessageIdKV (pre ++ l :: post) tm
        = some (l.topicId, l.pmMessageId)) ∧
    (∀ tm, (∀ e ∈ pre ++ l :: post, e.topicMessageId ≠ tm) →
      findPmMessageIdKV (pre ++ l :: post) tm = none) := by
  have hrev : (pre ++ l :: post).reverse
      = post.reverse ++ l :: pre.reverse := by
    simp
  refine ⟨?_, ?_, ?_, ?_⟩
  · intro pm hl hpost
    unfold findTopicMessageIdKV
    rw [hrev, List.find?_append]
    have h1 : post.reverse.find? (fun e => e.pmMessageId == pm) = none := by
      rw [List.find?_eq_none]
      intro e he
      simpa using hpost e (List.mem_reverse.1 he)
    have hb : (l.pmMessageId == pm) = true := by simpa using hl
    rw [h1, Option.none_or]
    simp [List.find?_cons, hb]
  · intro pm hall
    unfold findTopicMessageIdKV
    have h1 : (pre ++ l :: post).reverse.find?
        (fun e => e.pmMessageId == pm) = none := by
      rw [List.find?_eq_none]
      intro e he
      simpa using hall e (List.mem_reverse.1 he)
    rw [h1]
    rfl
  · intro tm hl hpost
    unfold findPmMessageIdKV
    rw [hrev, List.find?_append]
    have h1 : post.reverse.find? (fun e => e.topicMessageId == tm) = none := by
      rw [List.find?_eq_none]
      intro e he
      simpa using hpost e (List.mem_reverse.1 he)
    have hb : (l.topicMessageId == tm) = true := by simpa using hl
    rw [h1, Option.none_or]
    simp [List.find?_cons, hb]
  · intro tm hall
    unfold findPmMessageIdKV
    have h1 : (pre ++ l :: post).reverse.find?
        (fun e => e.topicMessageId == tm) = none := by
      rw [List.find?_eq_none]
      intro e he
      simpa using hall e (List.mem_reverse.1 he)
    rw [h1]
    rfl

theorem claim6_witness :
    findTopicMessageIdKV
        [⟨10, 100, 7⟩, ⟨11, 200, 7⟩, ⟨12, 300, 9⟩] 7 = some (11, 200) ∧
      findTopicMessageIdKV
        [⟨10, 100, 7⟩, ⟨11, 200, 7⟩, ⟨12, 300, 9⟩] 8 = none := by
  have h := claim6_theorem [⟨10, 100, 7⟩] ([⟨12, 300, 9⟩]) ⟨11, 200, 7⟩
  exact ⟨h.1 7 rfl (by decide), h.2.1 8 (by decide)⟩

/-! ## The Metadata Codec: `parseMetadataText` / `stringifyMetadata`

Record grammar: `groupId;topicId:[b]userChatId[:comment];...`.  The JS
`entries.join(';')` turns a `null` group id into an empty leading segment;
`text.split(';').filter(Boolean)` drops empty segments;
`parseInt(x, 10)` is `jsParseIntChars`; a `NaN` group id and a `null` one
are both modelled as `none` (both are falsy wherever the code tests the
group id). -/

/-- `MAX_TEXT_LENGTH` from `metadataManager.js` (Telegram text limit). -/
def MAX_TEXT_LENGTH : Nat := 4096

/-- The comment characters emitted for topic `t`:
`comment ? comment.replace(/[;:]/g, '') : ''`. -/
def commentChars (topicToComment : List (Int × String)) (t : Int) :
    List Char :=
  match mapGet? topicToComment t with
  | some c => c.data.filter (fun ch => !(ch = ';' || ch = ':'))
  | none => []

/-- One encoded entry:
`${topicId}:${banned}${fromChatId}${encodedComment ? ':'+encodedComment : ''}`. -/
def encodeEntry (bannedTopics : List String)
    (topicToComment : List (Int × String)) (p : Int × Int) : List Char :=
  let banned :=
    if bannedTopics.contains (intToString p.1) then ['b'] else []
  let comment := commentChars topicToComment p.1
  intToChars p.1 ++ ':' :: (banned ++ intToChars p.2)
    ++ (if comment = [] then [] else ':' :: comment)

/-- `stringifyMetadata`, on character lists. -/
def stringifyMetadataChars (superGroupChatId : Option Int)
    (topicToFromChat : List (Int × Int)) (bannedTopics : List String)
    (topicToComment : List (Int × String)) : List Char :=
  joinChar ';'
    ((match superGroupChatId with
      | some gid => intToChars gid
      | none => []) ::
      topicToFromChat.map (encodeEntry bannedTopics topicToComment))

/-- `stringifyMetadata` from `metadataManager.js`. -/
def stringifyMetadata (superGroupChatId : Option Int)
    (topicToFromChat : List (Int × Int)) (bannedTopics : List String)
    (topicToComment : List (Int × String)) : String :=
  String.mk
    (stringifyMetadataChars superGroupChatId topicToFromChat bannedTopics
      topicToComment)

/-- `stringifyMetadata` applied to a metadata structure, as at its call
sites in `trimMetadataEntries`. -/
def stringifyMeta (d : MetaData) : String :=
  stringifyMetadata d.superGroupChatId d.topicToFromChat d.bannedTopics
    d.topicToComment

/-- The loop body of `parseMetadataText`: split one entry on `:`, skip it
when the topic id or the user-chat id is not numeric, otherwise record the
binding, the blocked flag (leading `b` on the user chunk) and the optional
comment. -/
def parsePairItem (acc : MetaData) (item : List Char) : MetaData :=
  let segments := splitOnChar ':' item
  match jsParseIntChars (segments.getD 0 []) with
  | none => acc
  | some topicId =>
    let userChunk0 := segments.getD 1 []
    let banned : Bool := userChunk0.head? = some 'b'
    let userChunk := if banned then userChunk0.tail else userChunk0
    match jsParseIntChars userChunk with
    | none => acc
    | some fromChatId =>
      let commentName := segments.getD 2 []
      { acc with
        topicToFromChat := mapSet acc.topicToFromChat topicId fromChatId
        fromChatToTopic := mapSet acc.fromChatToTopic fromChatId topicId
        bannedTopics :=
          if banned then acc.bannedTopics ++ [intToString topicId]
          else acc.bannedTopics
        topicToComment :=
          if commentName ≠ [] then
            mapSet acc.topicToComment topicId (String.mk commentName)
          else acc.topicToComment
        fromChatToComment :=
          if commentName ≠ [] then
            mapSet acc.fromChatToComment fromChatId (String.mk commentName)
          else acc.fromChatToComment }

/-- `parseMetadataText` from `metadataManager.js`; the argument models the
JS string-or-null input (`none` and `""` are both falsy). -/
def parseMetadataText (o : Option String) : MetaData :=
  match o with
  | none => emptyMeta
  | some text =>
    if text.data = [] then emptyMeta
    else
      match (splitOnChar ';' text.data).filter (fun p => !p.isEmpty) with
      | [] => emptyMeta
      | groupIdRaw :: pairs =>
        { pairs.foldl parsePairItem emptyMeta with
          superGroupChatId := jsParseIntChars groupIdRaw }

/-! ### Character-class facts about the encoder output -/

theorem isDigit_ne_delims (c : Char) (h : c.isDigit) :
    c ≠ ';' ∧ c ≠ ':' ∧ c ≠ 'b' := by
  refine ⟨?_, ?_, ?_⟩ <;> (intro he; subst he; revert h; decide)

theorem intToChars_not_semi (i : Int) : ';' ∉ intToChars i := by
  intro hm
  cases i with
  | ofNat n =>
    have := natToChars_all_digits n _ hm
    exact absurd rfl (isDigit_ne_delims _ this).1
  | negSucc n =>
    rcases List.mem_cons.1 hm with h | h
    · exact absurd h.symm (by decide)
    · have := natToChars_all_digits (n + 1) _ h
      exact absurd rfl (isDigit_ne_delims _ this).1

theorem intToChars_not_colon (i : Int) : ':' ∉ intToChars i := by
  intro hm
  cases i with
  | ofNat n =>
    have := natToChars_all_digits n _ hm
    exact absurd rfl (isDigit_ne_delims _ this).2.1
  | negSucc n =>
    rcases List.mem_cons.1 hm with h | h
    · exact absurd h.symm (by decide)
    · have := natToChars_all_digits (n + 1) _ h
      exact absurd rfl (isDigit_ne_delims _ this).2.1

theorem intToChars_ne_nil (i : Int) : intToChars i ≠ [] := by
  cases i with
  | ofNat n => exact natToChars_ne_nil n
  | negSucc n => simp [intToChars]

theorem commentChars_not_semi (C : List (Int × String)) (t : Int) :
    ';' ∉ commentChars C t := by
  unfold commentChars
  cases mapGet? C t with
  | none => simp
  | some c =>
    intro hm
    have := List.of_mem_filter hm
    simp at this

theorem commentChars_not_colon (C : List (Int × String)) (t : Int) :
    ':' ∉ commentChars C t := by
  unfold commentChars
  cases mapGet? C t with
  | none => simp
  | some c =>
    intro hm
    have := List.of_mem_filter hm
    simp at this

theorem encodeEntry_not_semi (B : List String) (C : List (Int × String))
    (p : Int × Int) : ';' ∉ encodeEntry B C p := by
  intro hm
  simp only [encodeEntry] at hm
  rcases List.mem_append.1 hm with h | h
  · rcases List.mem_append.1 h with h | h
    · exact intToChars_not_semi p.1 h
    · rcases List.mem_cons.1 h with h | h
      · exact absurd h (by decide)
      · rcases List.mem_append.1 h with h | h
        · split at h
          · simp only [List.mem_singleton] at h
            exact absurd h (by decide)
          · simp at h
        · exact intToChars_not_semi p.2 h
  · split at h
    · simp at h
    · rcases List.mem_cons.1 h with h | h
      · exact absurd h (by decide)
      · exact commentChars_not_semi C p.1 h

theorem encodeEntry_ne_nil (B : List String) (C : List (Int × String))
    (p : Int × Int) : encodeEntry B C p ≠ [] := by
  unfold encodeEntry
  intro h
  rcases List.append_eq_nil.1 h with ⟨h1, _⟩
  rcases List.append_eq_nil.1 h1 with ⟨h2, _⟩
  exact intToChars_ne_nil p.1 h2

theorem intToChars_head_ne_b (i : Int) :
    (intToChars i).head? ≠ some 'b' := by
  cases i with
  | ofNat n =>
    obtain ⟨c, cs, hcons, hdig⟩ := natToChars_head_digit n
    show (natToChars n).head? ≠ some 'b'
    rw [hcons, List.head?_cons]
    intro h
    exact (isDigit_ne_delims c hdig).2.2 (Option.some_inj.1 h)
  | negSucc n =>
    simp [intToChars]

theorem joinChar_ne_nil (c : Char) (p : List Char) (ps : List (List Char))
    (hp : p ≠ []) : joinChar c (p :: ps) ≠ [] := by
  cases ps with
  | nil => exact hp
  | cons q qs =>
    show p ++ c :: joinChar c (q :: qs) ≠ []
    simp

theorem bool_not_isEmpty_of_ne_nil {α : Type} {l : List α} (h : l ≠ []) :
    (!l.isEmpty) = true := by
  cases l with
  | nil => exact absurd rfl h
  | cons a l => rfl

/-- What `parseMetadataText` does on a well-shaped joined record: the head
segment becomes the group id, the remaining segments run through the entry
loop. -/
theorem parse_of_join (g : List Char) (pairs : List (List Char))
    (hg1 : g ≠ []) (hg2 : ';' ∉ g)
    (hp : ∀ p ∈ pairs, p ≠ [] ∧ ';' ∉ p) :
    parseMetadataText (some (String.mk (joinChar ';' (g :: pairs))))
      = { pairs.foldl parsePairItem emptyMeta with
          superGroupChatId := jsParseIntChars g } := by
  have hjoin : splitOnChar ';' (joinChar ';' (g :: pairs)) = g :: pairs := by
    apply splitOnChar_join
    · simp
    · intro p hp'
      rcases List.mem_cons.1 hp' with h | h
      · exact h ▸ hg2
      · exact (hp p h).2
  have hne : ¬ (String.mk (joinChar ';' (g :: pairs))).data = [] :=
    joinChar_ne_nil ';' g pairs hg1
  have hfilter :
      (splitOnChar ';'
        (String.mk (joinChar ';' (g :: pairs))).data).filter
          (fun p => !p.isEmpty) = g :: pairs := by
    show (splitOnChar ';' (joinChar ';' (g :: pairs))).filter
      (fun p => !p.isEmpty) = g :: pairs
    rw [hjoin]
    apply List.filter_eq_self.mpr
    intro a ha
    rcases List.mem_cons.1 ha with h | h
    · exact h ▸ bool_not_isEmpty_of_ne_nil hg1
    · exact bool_not_isEmpty_of_ne_nil (hp a h).1
  simp only [parseMetadataText]
  rw [if_neg hne, hfilter]

/-! ### Decoding an encoded entry -/

theorem splitOnChar_sep (c : Char) (xs ys : List Char) (h : c ∉ xs) :
    splitOnChar c (xs ++ c :: ys) = xs :: splitOnChar c ys := by
  unfold splitOnChar
  rw [show splitOnCharAux c (xs ++ c :: ys) [] = splitOnCharAux c (xs ++ c :: ys) [] from rfl,
    splitOnCharAux_sep c xs [] ys h]
  simp [splitOnChar]

theorem encodeEntry_split (B : List String) (C : List (Int × String))
    (t u : Int) :
    splitOnChar ':' (encodeEntry B C (t, u))
      = [intToChars t,
          (if B.contains (intToString t) then ['b'] else [])
            ++ intToChars u]
        ++ (if commentChars C t = [] then [] else [commentChars C t]) := by
  have htC : ':' ∉ intToChars t := intToChars_not_colon t
  have hchunk : ':' ∉ (if B.contains (intToString t) then ['b'] else [])
      ++ intToChars u := by
    intro hm
    rcases List.mem_append.1 hm with h | h
    · split at h
      · simp only [List.mem_singleton] at h
        exact absurd h (by decide)
      · simp at h
    · exact intToChars_not_colon u h
  by_cases hcc : commentChars C t = []
  · have he : encodeEntry B C (t, u)
        = intToChars t ++ ':'
          :: ((if B.contains (intToString t) then ['b'] else [])
            ++ intToChars u) := by
      simp only [encodeEntry, hcc, if_pos]
      simp
    rw [he, splitOnChar_sep ':' _ _ htC, splitOnChar_nosep ':' _ hchunk,
      if_pos hcc]
    rfl
  · have he : encodeEntry B C (t, u)
        = intToChars t ++ ':'
          :: (((if B.contains (intToString t) then ['b'] else [])
            ++ intToChars u) ++ ':' :: commentChars C t) := by
      simp only [encodeEntry, if_neg hcc]
      simp [List.append_assoc]
    rw [he, splitOnChar_sep ':' _ _ htC, splitOnChar_sep ':' _ _ hchunk,
      splitOnChar_nosep ':' _ (commentChars_not_colon C t), if_neg hcc]
    rfl

/-- Running the entry loop body on an encoded entry re-creates exactly the
binding, blocked flag and comment that were encoded. -/
theorem parsePairItem_encode (B : List String) (C : List (Int × String))
    (acc : MetaData) (t u : Int) :
    parsePairItem acc (encodeEntry B C (t, u))
      = { acc with
          topicToFromChat := mapSet acc.topicToFromChat t u
          fromChatToTopic := mapSet acc.fromChatToTopic u t
          bannedTopics :=
            if B.contains (intToString t) then
              acc.bannedTopics ++ [intToString t]
            else acc.bannedTopics
          topicToComment :=
            if commentChars C t ≠ [] then
              mapSet acc.topicToComment t (String.mk (commentChars C t))
            else acc.topicToComment
          fromChatToComment :=
            if commentChars C t ≠ [] then
              mapSet acc.fromChatToComment u (String.mk (commentChars C t))
            else acc.fromChatToComment } := by
  have hsplit := encodeEntry_split B C t u
  have hbfalse : (decide ((intToChars u).head? = some 'b')) = false :=
    decide_eq_false (intToChars_head_ne_b u)
  by_cases hb : B.contains (intToString t) = true
  · by_cases hcc : commentChars C t = []
    · rw [if_pos hb, if_neg (by simpa using hcc), if_neg (by simpa using hcc)]
      rw [if_pos hb, if_pos hcc] at hsplit
      simp only [List.append_nil] at hsplit
      simp only [parsePairItem, hsplit]
      simp only [List.getD_cons_zero, List.getD_cons_succ,
        jsParseIntChars_intToChars t]
      simp only [List.cons_append, List.nil_append, List.head?_cons]
      simp only [show (decide (some 'b' = some 'b')) = true from rfl,
        if_pos, List.tail_cons, jsParseIntChars_intToChars u]
      simp [List.getD]
      rw [jsParseIntChars_intToChars u]
    · rw [if_pos hb, if_pos (by simpa using hcc), if_pos (by simpa using hcc)]
      rw [if_pos hb, if_neg hcc] at hsplit
      simp only [parsePairItem, hsplit]
      simp only [List.cons_append, List.nil_append]
      simp only [List.getD_cons_zero, List.getD_cons_succ,
        jsParseIntChars_intToChars t, List.head?_cons]
      simp only [show (decide (some 'b' = some 'b')) = true from rfl,
        if_pos, List.tail_cons, jsParseIntChars_intToChars u]
      simp [List.getD, hcc]
      rw [jsParseIntChars_intToChars u]
  · have hb' : (if B.contains (intToString t) then ['b'] else [])
        = ([] : List Char) := by
      rw [if_neg hb]
    by_cases hcc : commentChars C t = []
    · rw [if_neg hb, if_neg (by simpa using hcc), if_neg (by simpa using hcc)]
      rw [hb', if_pos hcc] at hsplit
      simp only [List.append_nil, List.nil_append] at hsplit
      simp only [parsePairItem, hsplit]
      simp only [List.getD_cons_zero, List.getD_cons_succ,
        jsParseIntChars_intToChars t]
      simp only [hbfalse, Bool.false_eq_true, if_false,
        jsParseIntChars_intToChars u]
      simp [List.getD]
    · rw [if_neg hb, if_pos (by simpa using hcc), if_pos (by simpa using hcc)]
      rw [hb', if_neg hcc] at hsplit
      simp only [List.nil_append] at hsplit
      simp only [parsePairItem, hsplit]
      simp only [List.cons_append, List.nil_append]
      simp only [List.getD_cons_zero, List.getD_cons_succ,
        jsParseIntChars_intToChars t]
      simp only [hbfalse, Bool.false_eq_true, if_false,
        jsParseIntChars_intToChars u]
      simp [List.getD, hcc]

/-- The entry loop over a list of encoded entries, accumulated effect on
the decoded binding list and blocked list. -/
theorem parsePairs_encode (B : List String) (C : List (Int × String))
    (L : List (Int × Int)) :
    ∀ acc : MetaData,
      ((L.map (encodeEntry B C)).foldl parsePairItem acc).topicToFromChat
        = L.foldl (fun m p => mapSet m p.1 p.2) acc.topicToFromChat ∧
      ((L.map (encodeEntry B C)).foldl parsePairItem acc).bannedTopics
        = acc.bannedTopics
          ++ (L.filter
              (fun p => B.contains (intToString p.1))).map
            (fun p => intToString p.1) := by
  induction L with
  | nil => intro acc; simp
  | cons p ps ih =>
    intro acc
    simp only [List.map_cons, List.foldl_cons]
    cases p with
    | mk t u =>
      rw [parsePairItem_encode]
      obtain ⟨ih1, ih2⟩ := ih _
      constructor
      · rw [ih1]
      · rw [ih2]
        dsimp only
        by_cases hb : B.contains (intToString t) = true
        · rw [if_pos hb, List.filter_cons, if_pos (by simpa using hb)]
          simp [List.append_assoc]
        · rw [if_neg hb, List.filter_cons, if_neg (by simpa using hb)]

/-- Re-inserting an association list with pairwise-distinct keys into a map
it is disjoint from appends it unchanged. -/
theorem foldl_mapSet_self (L : List (Int × Int)) :
    ∀ A : List (Int × Int), (L.map Prod.fst).Nodup →
      (∀ p ∈ L, mapGet? A p.1 = none) →
      L.foldl (fun m p => mapSet m p.1 p.2) A = A ++ L := by
  induction L with
  | nil => intro A _ _; simp
  | cons p ps ih =>
    intro A hnd hab
    have hnd' : (p.1 :: ps.map Prod.fst).Nodup := by simpa using hnd
    simp only [List.foldl_cons]
    rw [mapSet_absent A p.1 p.2 (hab p (List.mem_cons_self p ps)),
      ih (A ++ [p]) (List.nodup_cons.1 hnd').2 ?habs]
    · simp
    case habs =>
      intro q hq
      have hne : p.1 ≠ q.1 := by
        intro he
        exact (List.nodup_cons.1 hnd').1
          (he ▸ List.mem_map_of_mem Prod.fst hq)
      rw [mapGet?_append_of_none _ (hab q (List.mem_cons_of_mem p hq)),
        mapGet?_cons, if_neg hne]
      rfl

/-- Round trip of the Metadata Codec on a valid structure with a non-null
group id: decoding the encoding restores the group id, the binding list
exactly, and a blocked list holding precisely the keys of the blocked
bindings. -/
theorem parse_stringify (d : MetaData) (g : Int) (hv : ValidMeta d)
    (hg : d.superGroupChatId = some g) :
    (parseMetadataText (some (stringifyMeta d))).superGroupChatId = some g ∧
    (parseMetadataText (some (stringifyMeta d))).topicToFromChat
      = d.topicToFromChat ∧
    (parseMetadataText (some (stringifyMeta d))).bannedTopics
      = (d.topicToFromChat.filter
          (fun p => d.bannedTopics.contains (intToString p.1))).map
        (fun p => intToString p.1) := by
  have hstr : stringifyMeta d
      = String.mk (joinChar ';'
          (intToChars g ::
            d.topicToFromChat.map
              (encodeEntry d.bannedTopics d.topicToComment))) := by
    unfold stringifyMeta stringifyMetadata stringifyMetadataChars
    rw [hg]
  rw [hstr,
    parse_of_join _ _ (intToChars_ne_nil g) (intToChars_not_semi g)
      (by
        intro p hp
        obtain ⟨q, hq, he⟩ := List.mem_map.1 hp
        exact he ▸ ⟨encodeEntry_ne_nil _ _ q, encodeEntry_not_semi _ _ q⟩)]
  obtain ⟨h1, h2⟩ :=
    parsePairs_encode d.bannedTopics d.topicToComment d.topicToFromChat
      emptyMeta
  refine ⟨jsParseIntChars_intToChars g, ?_, ?_⟩
  · show ((d.topicToFromChat.map
        (encodeEntry d.bannedTopics d.topicToComment)).foldl parsePairItem
          emptyMeta).topicToFromChat = d.topicToFromChat
    rw [h1]
    exact (foldl_mapSet_self d.topicToFromChat [] hv.1
      (fun p _ => rfl)).trans (by simp)
  · show ((d.topicToFromChat.map
        (encodeEntry d.bannedTopics d.topicToComment)).foldl parsePairItem
          emptyMeta).bannedTopics = _
    rw [h2]
    simp [emptyMeta]

/-! ## Claim C3: Metadata Codec round trip -/

/-- A structure with a `null` group id and one binding: the encoder emits
`";1:10"`, whose decoder consumes `1:10` as the group segment. -/
def dNullGroup : MetaData :=
  { superGroupChatId := none
    topicToFromChat := [(1, 10)]
    fromChatToTopic := [(10, 1)]
    bannedTopics := []
    topicToComment := []
    fromChatToComment := [] }

/-- Claim C3, as stated, is false: for a valid structure whose group id is
`null`, the JS `join` renders the group as an empty leading segment,
`filter(Boolean)` drops it, and the decoder consumes the first binding as
the group id — the decoded binding set loses that binding even though the
encoding is far below the 4096-character limit. -/
theorem claim3_counterexample :
    ValidMeta dNullGroup ∧
      (stringifyMeta dNullGroup).length ≤ 4096 ∧
      (parseMetadataText
        (some (stringifyMeta dNullGroup))).topicToFromChat
        ≠ dNullGroup.topicToFromChat := by
  decide

/-- Claim C3 (corrected): for every valid metadata structure whose group id
is present (non-null) and whose encoding is at most 4096 characters,
decoding the encoding yields exactly the same (topicId, userChatId)
binding list and the same blocked flag for every binding. -/
theorem claim3_theorem (d : MetaData) (g : Int) (hv : ValidMeta d)
    (hg : d.superGroupChatId = some g)
    (hlen : (stringifyMeta d).length ≤ 4096) :
    (parseMetadataText (some (stringifyMeta d))).topicToFromChat
      = d.topicToFromChat ∧
    ∀ p ∈ d.topicToFromChat,
      isTopicBanned (parseMetadataText (some (stringifyMeta d))) p.1
        = isTopicBanned d p.1 := by
  obtain ⟨h1, h2, h3⟩ := parse_stringify d g hv hg
  refine ⟨h2, ?_⟩
  intro p hp
  unfold isTopicBanned
  rw [h3]
  by_cases hb : d.bannedTopics.contains (intToString p.1) = true
  · rw [hb]
    exact List.elem_iff.mpr
      (List.mem_map_of_mem _ (List.mem_filter.2 ⟨hp, hb⟩))
  · rw [Bool.not_eq_true] at hb
    rw [hb]
    cases hc : ((d.topicToFromChat.filter
        (fun q => d.bannedTopics.contains (intToString q.1))).map
          (fun q => intToString q.1)).contains (intToString p.1) with
    | false => rfl
    | true =>
      obtain ⟨q, hq, he⟩ := List.mem_map.1 (List.elem_iff.mp hc)
      have hc2 := (List.mem_filter.1 hq).2
      rw [he, hb] at hc2
      exact hc2.symm

/-- A valid two-binding structure with one blocked topic and a label. -/
def dBanDemo : MetaData :=
  { superGroupChatId := some (-100123)
    topicToFromChat := [(10, 555), (11, 666)]
    fromChatToTopic := [(555, 10), (666, 11)]
    bannedTopics := ["11"]
    topicToComment := [(10, "alice")]
    fromChatToComment := [(555, "alice")] }

theorem claim3_witness :
    ValidMeta dBanDemo ∧
      dBanDemo.superGroupChatId = some (-100123) ∧
      (stringifyMeta dBanDemo).length ≤ 4096 ∧
      (parseMetadataText (some (stringifyMeta dBanDemo))).topicToFromChat
        = dBanDemo.topicToFromChat := by
  have h := claim3_theorem dBanDemo (-100123) (by decide) rfl (by decide)
  exact ⟨by decide, rfl, by decide, h.1⟩

/-! ## Claim C9: total decoding, malformed entries skipped -/

/-- An individual entry is malformed when its topic-id segment or its
user-chat segment (after the blocked-flag strip) is not numeric — the two
`continue` conditions of the entry loop. -/
def malformedItem (item : List Char) : Bool :=
  let segments := splitOnChar ':' item
  match jsParseIntChars (segments.getD 0 []) with
  | none => true
  | some _ =>
    let userChunk0 := segments.getD 1 []
    let banned : Bool := userChunk0.head? = some 'b'
    let userChunk := if banned then userChunk0.tail else userChunk0
    (jsParseIntChars userChunk).isNone

theorem parsePairItem_malformed (acc : MetaData) (item : List Char)
    (h : malformedItem item = true) : parsePairItem acc item = acc := by
  simp only [malformedItem] at h
  simp only [parsePairItem]
  cases hA : jsParseIntChars ((splitOnChar ':' item).getD 0 []) with
  | none => rfl
  | some tid =>
    cases hB : jsParseIntChars
        (if decide (((splitOnChar ':' item).getD 1 []).head? = some 'b')
            = true then
          ((splitOnChar ':' item).getD 1 []).tail
        else (splitOnChar ':' item).getD 1 []) with
    | none => rfl
    | some uid =>
      exfalso
      rw [hA, hB] at h
      simp at h

/-- Claim C9: decoding is total and forgiving — `null` and empty inputs
decode to the empty-but-valid structure, and a malformed entry anywhere in
a well-shaped record is skipped: the decode result equals that of the same
record with the malformed entry removed (so every well-formed entry is
still decoded). -/
theorem claim9_theorem :
    parseMetadataText none = emptyMeta ∧
    parseMetadataText (some "") = emptyMeta ∧
    ∀ (g item : List Char) (pre post : List (List Char)),
      g ≠ [] → ';' ∉ g →
      (∀ p ∈ pre ++ item :: post, p ≠ [] ∧ ';' ∉ p) →
      malformedItem item = true →
      parseMetadataText
          (some (String.mk (joinChar ';' (g :: (pre ++ item :: post)))))
        = parseMetadataText
            (some (String.mk (joinChar ';' (g :: (pre ++ post))))) := by
  refine ⟨rfl, rfl, ?_⟩
  intro g item pre post hg1 hg2 hp hmal
  have hp' : ∀ p ∈ pre ++ post, p ≠ [] ∧ ';' ∉ p := by
    intro p hmem
    apply hp
    rcases List.mem_append.1 hmem with h | h
    · exact List.mem_append.2 (Or.inl h)
    · exact List.mem_append.2 (Or.inr (List.mem_cons_of_mem item h))
  rw [parse_of_join g _ hg1 hg2 hp, parse_of_join g _ hg1 hg2 hp']
  have hfold : (pre ++ item :: post).foldl parsePairItem emptyMeta
      = (pre ++ post).foldl parsePairItem emptyMeta := by
    rw [List.foldl_append, List.foldl_append, List.foldl_cons,
      parsePairItem_malformed _ _ hmal]
  rw [hfold]

theorem claim9_witness :
    malformedItem "x:5".data = true ∧
      parseMetadataText
          (some (String.mk (joinChar ';'
            ("1".data :: ([] ++ "x:5".data :: ["2:7".data])))))
        = parseMetadataText
            (some (String.mk (joinChar ';' ("1".data :: ([] ++ ["2:7".data]))))) := by
  have h := claim9_theorem.2.2 "1".data "x:5".data [] ["2:7".data]
    (by decide) (by decide) (by decide) (by decide)
  exact ⟨by decide, h⟩

/-! ## `trimMetadataEntries`: size-bounded encoding with FIFO eviction

The JS loop takes one key iterator over `topicToFromChat` before looping
and deletes the key it just visited, so it walks the insertion-ordered key
list front to back; `trimGo`'s first argument is that key list. -/

def trimGo : List Int → MetaData → MetaData × String
  | keys, data =>
    let serialized := stringifyMeta data
    if serialized.length ≤ MAX_TEXT_LENGTH then (data, serialized)
    else if data.topicToFromChat.isEmpty then (data, serialized)
    else
      match keys with
      | [] => (data, serialized)
      | k :: rest => trimGo rest (removeMapping data k)

/-- `trimMetadataEntries` from `metadataManager.js`: evict oldest bindings
until the encoding fits, then return the (sliced) encoding; the first
component is the mutated structure the caller goes on using. -/
def trimMetadataEntries (data : MetaData) : MetaData × String :=
  let r := trimGo (data.topicToFromChat.map Prod.fst) data
  (r.1, String.mk (r.2.data.take MAX_TEXT_LENGTH))

theorem removeMapping_valid (d : MetaData) (hv : ValidMeta d) (tid : Int) :
    ValidMeta (removeMapping d tid) := by
  obtain ⟨h1, h2, h3, h4, h5, h6, h7⟩ := hv
  cases hget : mapGet? d.topicToFromChat tid with
  | some u0 =>
    have h0 : u0 ≠ 0 := valid_get_ttfc_nonzero ⟨h1, h2, h3, h4, h5, h6, h7⟩ hget
    rw [removeMapping_eq_of_bound d tid u0 hget h0]
    exact ⟨mapDelete_keys_nodup h1, mapDelete_keys_nodup h2,
      mapDelete_keys_nodup h3, mapDelete_keys_nodup h4, h5.erase _,
      fun p hp => h6 p (mapDelete_mem hp),
      fun p hp => h7 p (mapDelete_mem hp)⟩
  | none =>
    rw [removeMapping_eq_of_unbound d tid hget]
    exact ⟨mapDelete_keys_nodup h1, h2, mapDelete_keys_nodup h3, h4,
      h5.erase _, fun p hp => h6 p (mapDelete_mem hp), h7⟩

theorem removeMapping_superGroup (d : MetaData) (t : Int) :
    (removeMapping d t).superGroupChatId = d.superGroupChatId := by
  unfold removeMapping
  cases optTruthy (mapGet? d.topicToFromChat t) <;> rfl

theorem removeMapping_topicToFromChat (d : MetaData) (t : Int) :
    (removeMapping d t).topicToFromChat = mapDelete d.topicToFromChat t := by
  unfold removeMapping
  cases optTruthy (mapGet? d.topicToFromChat t) <;> rfl

theorem mapDelete_cons_self {β : Type} (k : Int) (u : β)
    (rest : List (Int × β))
    (hnd : (((k, u) :: rest).map Prod.fst).Nodup) :
    mapDelete ((k, u) :: rest) k = rest := by
  have hk : k ∉ rest.map Prod.fst := (List.nodup_cons.1 (by simpa using hnd)).1
  simp only [mapDelete, List.filter_cons, bne_self_eq_false,
    Bool.false_eq_true, if_false]
  apply List.filter_eq_self.mpr
  intro p hp
  have : p.1 ≠ k := by
    intro he
    exact hk (he ▸ List.mem_map_of_mem Prod.fst hp)
  simpa using this

theorem trimGo_nil (d : MetaData) : trimGo [] d = (d, stringifyMeta d) := by
  simp only [trimGo]
  split
  · rfl
  · split
    · rfl
    · rfl

theorem trimGo_spec (keys : List Int) :
    ∀ d : MetaData, ValidMeta d → keys = d.topicToFromChat.map Prod.fst →
      ValidMeta (trimGo keys d).1 ∧
      (trimGo keys d).1.superGroupChatId = d.superGroupChatId ∧
      (∃ k, (trimGo keys d).1.topicToFromChat = d.topicToFromChat.drop k) ∧
      (trimGo keys d).2 = stringifyMeta (trimGo keys d).1 ∧
      ((trimGo keys d).2.length ≤ MAX_TEXT_LENGTH ∨
        (trimGo keys d).1.topicToFromChat = []) := by
  induction keys with
  | nil =>
    intro d hv hk
    have httfc : d.topicToFromChat = [] := by
      cases h : d.topicToFromChat with
      | nil => rfl
      | cons p ps => rw [h] at hk; simp at hk
    rw [trimGo_nil]
    exact ⟨hv, rfl, ⟨0, rfl⟩, rfl, Or.inr httfc⟩
  | cons k rest ih =>
    intro d hv hk
    cases htt : d.topicToFromChat with
    | nil => rw [htt] at hk; simp at hk
    | cons p tail =>
      rw [htt] at hk
      simp only [List.map_cons, List.cons.injEq] at hk
      by_cases hlen : (stringifyMeta d).length ≤ MAX_TEXT_LENGTH
      · have hres : trimGo (k :: rest) d = (d, stringifyMeta d) := by
          simp only [trimGo]
          rw [if_pos hlen]
        rw [hres]
        exact ⟨hv, rfl, ⟨0, by rw [htt, List.drop_zero]⟩, rfl, Or.inl hlen⟩
      · have hne : d.topicToFromChat.isEmpty = false := by rw [htt]; rfl
        have hres : trimGo (k :: rest) d
            = trimGo rest (removeMapping d k) := by
          simp only [trimGo]
          rw [if_neg hlen, hne]
          rfl
        have hv' := removeMapping_valid d hv k
        have httfc' : (removeMapping d k).topicToFromChat = tail := by
          rw [removeMapping_topicToFromChat, htt, hk.1]
          have hnd := hv.1
          rw [htt] at hnd
          exact mapDelete_cons_self p.1 p.2 tail hnd
        have hk' : rest = (removeMapping d k).topicToFromChat.map Prod.fst := by
          rw [httfc']
          exact hk.2
        obtain ⟨hv'', hsg, ⟨k', hdrop⟩, hser, hterm⟩ :=
          ih (removeMapping d k) hv' hk'
        rw [hres]
        refine ⟨hv'', ?_, ⟨k' + 1, ?_⟩, hser, hterm⟩
        · rw [hsg, removeMapping_superGroup]
        · rw [hdrop, httfc']
          rfl

/-! ## Claim C4: trimmed encoding fits, retains newest bindings -/

/-- Claim C4: for every valid metadata structure with a present group id
whose naive encoding exceeds 4096 characters, `trimMetadataEntries`
returns a string of length at most 4096, and decoding it yields exactly a
suffix of the insertion-ordered binding list — the most recently inserted
bindings, the oldest `k` having been evicted first. -/
theorem claim4_theorem (d : MetaData) (g : Int) (hv : ValidMeta d)
    (hg : d.superGroupChatId = some g)
    (hbig : MAX_TEXT_LENGTH < (stringifyMeta d).length) :
    (trimMetadataEntries d).2.length ≤ MAX_TEXT_LENGTH ∧
    ∃ k, (parseMetadataText (some (trimMetadataEntries d).2)).topicToFromChat
      = d.topicToFromChat.drop k := by
  obtain ⟨hv', hsg, ⟨k, hdrop⟩, hser, hterm⟩ :=
    trimGo_spec (d.topicToFromChat.map Prod.fst) d hv rfl
  have hgr : (trimGo (d.topicToFromChat.map Prod.fst) d).1.superGroupChatId
      = some g := by rw [hsg, hg]
  rcases hterm with hlen | hnil
  · have htake : (trimGo (d.topicToFromChat.map Prod.fst) d).2.data.take
        MAX_TEXT_LENGTH
        = (trimGo (d.topicToFromChat.map Prod.fst) d).2.data := by
      apply List.take_of_length_le
      cases hs : (trimGo (d.topicToFromChat.map Prod.fst) d).2 with
      | mk l =>
        rw [hs] at hlen
        exact hlen
    constructor
    · show (String.mk _).length ≤ MAX_TEXT_LENGTH
      rw [htake]
      cases hs : (trimGo (d.topicToFromChat.map Prod.fst) d).2 with
      | mk l =>
        rw [hs] at hlen
        exact hlen
    · refine ⟨k, ?_⟩
      show (parseMetadataText (some (String.mk _))).topicToFromChat = _
      rw [htake]
      have heta : String.mk (trimGo (d.topicToFromChat.map Prod.fst) d).2.data
          = (trimGo (d.topicToFromChat.map Prod.fst) d).2 := by
        cases (trimGo (d.topicToFromChat.map Prod.fst) d).2
        rfl
      rw [heta, hser]
      rw [(parse_stringify _ g hv' hgr).2.1, hdrop]
  · have hserial : (trimGo (d.topicToFromChat.map Prod.fst) d).2.data
        = intToChars g := by
      rw [hser]
      show (stringifyMeta _).data = _
      unfold stringifyMeta stringifyMetadata stringifyMetadataChars
      rw [hgr, hnil]
      rfl
    constructor
    · show (String.mk _).length ≤ MAX_TEXT_LENGTH
      show ((trimGo (d.topicToFromChat.map Prod.fst) d).2.data.take
        MAX_TEXT_LENGTH).length ≤ MAX_TEXT_LENGTH
      rw [List.length_take]
      exact Nat.min_le_left _ _
    · refine ⟨d.topicToFromChat.length, ?_⟩
      rw [List.drop_length]
      show (parseMetadataText (some (String.mk
        ((trimGo (d.topicToFromChat.map Prod.fst)
          d).2.data.take MAX_TEXT_LENGTH)))).topicToFromChat = []
      have hcs_ne : (trimGo (d.topicToFromChat.map Prod.fst) d).2.data.take
          MAX_TEXT_LENGTH ≠ [] := by
        rw [hserial]
        intro h
        rcases List.take_eq_nil_iff.1 h with h | h
        · exact absurd h (by decide)
        · exact intToChars_ne_nil g h
      have hcs_semi : ';' ∉ (trimGo (d.topicToFromChat.map Prod.fst)
          d).2.data.take MAX_TEXT_LENGTH := by
        rw [hserial]
        intro hm
        exact intToChars_not_semi g (List.take_subset _ _ hm)
      have hpj := parse_of_join
        ((trimGo (d.topicToFromChat.map Prod.fst) d).2.data.take
          MAX_TEXT_LENGTH) [] hcs_ne hcs_semi (by intro p hp; simp at hp)
      rw [show String.mk ((trimGo (d.topicToFromChat.map Prod.fst)
          d).2.data.take MAX_TEXT_LENGTH)
        = String.mk (joinChar ';'
            [(trimGo (d.topicToFromChat.map Prod.fst) d).2.data.take
              MAX_TEXT_LENGTH]) from rfl, hpj]
      rfl

/-- A one-binding structure with a 4200-character label: its naive
encoding exceeds 4096 characters. -/
def longComment : String := String.mk (List.replicate 4200 'a')

def dBig : MetaData :=
  { superGroupChatId := some 7
    topicToFromChat := [(1, 2)]
    fromChatToTopic := [(2, 1)]
    bannedTopics := []
    topicToComment := [(1, longComment)]
    fromChatToComment := [(2, longComment)] }

theorem dBig_encoding_big :
    MAX_TEXT_LENGTH < (stringifyMeta dBig).length := by
  have hcc : commentChars [(1, longComment)] 1 = List.replicate 4200 'a' := by
    show (List.replicate 4200 'a').filter
      (fun ch => !(ch = ';' || ch = ':')) = List.replicate 4200 'a'
    apply List.filter_eq_self.mpr
    intro c hc
    have hc' : c = 'a' := List.eq_of_mem_replicate hc
    subst hc'
    decide
  have hrep_ne : List.replicate 4200 'a' ≠ ([] : List Char) := by
    intro h
    have h2 : (List.replicate 4200 'a').length = 0 := by rw [h]; rfl
    rw [List.length_replicate] at h2
    omega
  have hentry : encodeEntry [] [(1, longComment)] (1, 2)
      = intToChars 1 ++ ':' :: (([] : List Char) ++ intToChars 2)
        ++ ':' :: List.replicate 4200 'a' := by
    simp only [encodeEntry, hcc]
    rw [show (if ([] : List String).contains (intToString 1) then ['b']
      else ([] : List Char)) = ([] : List Char) from rfl]
    rw [if_neg hrep_ne]
  have hshape : stringifyMeta dBig
      = String.mk (joinChar ';'
          [intToChars 7, encodeEntry [] [(1, longComment)] (1, 2)]) := rfl
  show MAX_TEXT_LENGTH < (stringifyMeta dBig).length
  rw [hshape]
  show MAX_TEXT_LENGTH < (joinChar ';'
    [intToChars 7, encodeEntry [] [(1, longComment)] (1, 2)]).length
  rw [joinChar_length]
  simp only [List.map_cons, List.map_nil, List.sum_cons, List.sum_nil,
    hentry, List.length_append, List.length_cons, List.length_replicate]
  have h1 : (intToChars 7).length = 1 := by decide
  have h2 : (intToChars 1).length = 1 := by decide
  have h3 : (intToChars 2).length = 1 := by decide
  rw [h1, h2, h3]
  simp only [MAX_TEXT_LENGTH, List.length_nil]
  omega

theorem claim4_witness :
    ValidMeta dBig ∧ MAX_TEXT_LENGTH < (stringifyMeta dBig).length ∧
      (trimMetadataEntries dBig).2.length ≤ MAX_TEXT_LENGTH ∧
      ∃ k, (parseMetadataText
          (some (trimMetadataEntries dBig).2)).topicToFromChat
        = dBig.topicToFromChat.drop k := by
  have h := claim4_theorem dBig 7 (by decide) rfl dBig_encoding_big
  exact ⟨by decide, dBig_encoding_big, h.1, h.2⟩

/-! ## The Synchronization Engine: `ensureTopic` and `forwardPrivateToTopic`

The remote gateway is an explicit environment: the sender's
`getChatMember` status, and the answers to the `k`-th `createForumTopic`
and `copyMessage` calls.  Remote calls whose answers never influence
control flow or tracked state (`sendMessage` notices, `editMessageText` of
the pinned backup, KV `put`) are not part of the environment; `updateMapping`'s
lasting effect on the in-memory structure — the `trimMetadataEntries`
eviction, which mutates `data` in place — is applied where the JS calls it.
The fuel argument stands for the JS call stack: `none` means the recursion
exceeded any given depth. -/

structure ApiResp where
  ok : Bool
  description : Option String
  resultMsgId : Option Int
deriving Repr, DecidableEq

structure Env where
  adminStatus : Option String
  createThread : Nat → Bool × Option Int
  copyMessage : Nat → ApiResp

structure PrivateMsg where
  chatId : Int
  messageId : Int
  replyToId : Option Int
deriving Repr, DecidableEq

structure RelayState where
  meta : MetaData
  kv : List MsgLink
  copyCalls : Nat
  createCalls : Nat
deriving Repr

inductive RelayOutcome
  | blockedNotice
  | sent
  | failedNotice
  | errorReported
deriving Repr, DecidableEq

inductive RelayErr
  | adminConflict
  | createTopicFailed
deriving Repr, DecidableEq

/-- `isSupergroupAdmin` from `messageHandler.js`: the member status string
is `creator` or `administrator` (an errored lookup yields `none`, hence
`false`, matching the `catch` branch). -/
def isSupergroupAdmin (status : Option String) : Bool :=
  status == some "creator" || status == some "administrator"

/-- JavaScript `String.prototype.includes` on character lists. -/
def charsHasInfixOf (pat : List Char) : List Char → Bool
  | [] => pat.isPrefixOf []
  | c :: t => pat.isPrefixOf (c :: t) || charsHasInfixOf pat t

/-- `s.includes(pat)`. -/
def strIncludes (s pat : String) : Bool := charsHasInfixOf pat.data s.data

/-- The thread-invalid test of `forwardPrivateToTopic`:
`resp.description?.includes('message thread not found') ||
 resp.description?.includes('TOPIC_ID_INVALID')`. -/
def isThreadInvalidResp (r : ApiResp) : Bool :=
  match r.description with
  | some d =>
    strIncludes d "message thread not found" || strIncludes d "TOPIC_ID_INVALID"
  | none => false

/-- `ensureTopic` from `topicManager.js`, as a pure function of the
environment: returns the topic id (or the thrown error), the resulting
metadata, and how many `createForumTopic` calls were issued.  Note the JS
truthiness test `if (topicId) return …` on the cached binding, and
`!createResp.ok || !newTopicId` on the creation answer. -/
def ensureTopic (env : Env) (metaData : MetaData) (fromChatId : Int)
    (createIdx : Nat) : Except RelayErr Int × MetaData × Nat :=
  match optTruthy (mapGet? metaData.fromChatToTopic fromChatId) with
  | some topicId => (.ok topicId, metaData, 0)
  | none =>
    if isSupergroupAdmin env.adminStatus then
      (.error .adminConflict, metaData, 0)
    else
      let createResp := env.createThread createIdx
      match (if createResp.1 then optTruthy createResp.2 else none) with
      | none => (.error .createTopicFailed, metaData, 1)
      | some newTopicId =>
        let d2 := upsertMapping metaData newTopicId fromChatId none
        (.ok newTopicId, (trimMetadataEntries d2).1, 1)

/-- `forwardPrivateToTopic` from `topicManager.js` (fuel-indexed).  The
blocked check, `ensureTopic`, reply-target resolution through the
Message-Index, the `copyMessage` call, the thread-invalid recovery
(remove the binding, purge the topic's links, persist, recurse on the
WHOLE relay), and the success path appending a Message Link. -/
def forwardPrivateToTopic :
    Nat → Env → PrivateMsg → RelayState → Option (RelayOutcome × RelayState)
  | 0, _, _, _ => none
  | fuel + 1, env, message, st =>
    let fromChatId := message.chatId
    let existingTopicId :=
      optTruthy (mapGet? st.meta.fromChatToTopic fromChatId)
    let banned :=
      match existingTopicId with
      | some t => isTopicBanned st.meta t
      | none => false
    if banned then some (.blockedNotice, st)
    else
      match ensureTopic env st.meta fromChatId st.createCalls with
      | (.error _, d', cc) =>
        some (.errorReported,
          { st with meta := d', createCalls := st.createCalls + cc })
      | (.ok topicId, d', cc) =>
        let st1 : RelayState :=
          { st with meta := d', createCalls := st.createCalls + cc }
        let targetTopicId :=
          match message.replyToId with
          | some rid =>
            match findTopicMessageIdKV st1.kv rid with
            | some (mappingTopicId, _) =>
              if mappingTopicId ≠ 0 then mappingTopicId else topicId
            | none => topicId
          | none => topicId
        let resp := env.copyMessage st1.copyCalls
        let st2 : RelayState := { st1 with copyCalls := st1.copyCalls + 1 }
        if resp.ok then
          let st3 :=
            match optTruthy resp.resultMsgId with
            | some topicMessageId =>
              { st2 with
                kv := addMessageMappingKV st2.kv targetTopicId
                  topicMessageId message.messageId }
            | none => st2
          some (.sent, st3)
        else if isThreadInvalidResp resp then
          let d2 := removeMapping st2.meta targetTopicId
          let kv2 := cleanupTopicMessages st2.kv targetTopicId
          let d3 := (trimMetadataEntries d2).1
          forwardPrivateToTopic fuel env message
            { st2 with meta := d3, kv := kv2 }
        else some (.failedNotice, st2)

/-! ## Claim C8: administrators never get a thread -/

/-- Claim C8: when no Thread Binding exists for the user chat and the
gateway reports the user as a group administrator (`creator` or
`administrator` status), `ensureTopic` fails with the admin-conflict
error, issues zero `createForumTopic` calls, and leaves the metadata —
in particular the binding indices — unchanged. -/
theorem claim8_theorem (env : Env) (d : MetaData) (u : Int) (cidx : Nat)
    (hnb : mapGet? d.fromChatToTopic u = none)
    (hadmin : isSupergroupAdmin env.adminStatus = true) :
    ensureTopic env d u cidx = (.error .adminConflict, d, 0) := by
  unfold ensureTopic
  rw [hnb]
  show (if isSupergroupAdmin env.adminStatus then _ else _) = _
  rw [hadmin]
  rfl

/-- A gateway environment whose member lookup answers `administrator`. -/
def envAdmin : Env :=
  { adminStatus := some "administrator"
    createThread := fun _ => (true, some 99)
    copyMessage := fun _ => { ok := true, description := none, resultMsgId := some 1 } }

theorem claim8_witness :
    mapGet? emptyMeta.fromChatToTopic 5 = none ∧
      isSupergroupAdmin envAdmin.adminStatus = true ∧
      ensureTopic envAdmin emptyMeta 5 0
        = (.error .adminConflict, emptyMeta, 0) :=
  ⟨rfl, by decide, claim8_theorem envAdmin emptyMeta 5 0 rfl (by decide)⟩

/-! ## Claim C7: blocked relay short-circuits; unblocking restores it -/

theorem markBan_false_bannedTopics (d : MetaData) (t : Int)
    (hban : isTopicBanned d t = true) :
    (markBan d t false).bannedTopics
      = d.bannedTopics.erase (intToString t) := by
  have hc : d.bannedTopics.contains (intToString t) = true := hban
  have hm : intToString t ∈ d.bannedTopics := List.elem_iff.mp hc
  simp [markBan, hc, hm]

theorem isTopicBanned_markBan_false (d : MetaData) (t : Int)
    (hnd : d.bannedTopics.Nodup) (hban : isTopicBanned d t = true) :
    isTopicBanned (markBan d t false) t = false := by
  unfold isTopicBanned
  rw [markBan_false_bannedTopics d t hban]
  cases hc : (d.bannedTopics.erase (intToString t)).contains
      (intToString t) with
  | false => rfl
  | true => exact absurd (List.elem_iff.mp hc) hnd.not_mem_erase

/-- Claim C7: when the sender's chat is bound to a blocked topic, the
relay returns the blocked notice with the state — including the remote
`copyMessage` call counter — completely unchanged (zero relay calls);
after `markBan … false` clears the flag, the same relay reaches the
`copyMessage` call (exactly one) and, when the gateway accepts it,
completes with the sent marker and no topic creation. -/
theorem claim7_theorem (env : Env) (d : MetaData) (kv : List MsgLink)
    (c0 cr0 : Nat) (msg : PrivateMsg) (t : Int)
    (hv : ValidMeta d)
    (hbind : mapGet? d.fromChatToTopic msg.chatId = some t) (ht : t ≠ 0)
    (hban : isTopicBanned d t = true) :
    (∀ fuel, forwardPrivateToTopic (fuel + 1) env msg ⟨d, kv, c0, cr0⟩
        = some (.blockedNotice, ⟨d, kv, c0, cr0⟩)) ∧
    ((env.copyMessage c0).ok = true →
      ∀ fuel, ∃ st' : RelayState,
        forwardPrivateToTopic (fuel + 1) env msg
            ⟨markBan d t false, kv, c0, cr0⟩ = some (.sent, st') ∧
        st'.copyCalls = c0 + 1 ∧ st'.createCalls = cr0) := by
  constructor
  · intro fuel
    simp only [forwardPrivateToTopic]
    simp [hbind, optTruthy, ht, hban]
  · intro hok fuel
    have hbind' : mapGet? (markBan d t false).fromChatToTopic msg.chatId
        = some t := by
      rw [markBan_fromChatToTopic]
      exact hbind
    have hnban : isTopicBanned (markBan d t false) t = false :=
      isTopicBanned_markBan_false d t hv.2.2.2.2.1 hban
    have hens : ensureTopic env (markBan d t false) msg.chatId cr0
        = (.ok t, markBan d t false, 0) := by
      unfold ensureTopic
      rw [hbind']
      simp [optTruthy, ht]
    have hot : optTruthy (some t) = some t := by simp [optTruthy, ht]
    simp only [forwardPrivateToTopic]
    simp only [hbind', hot, hnban, Bool.false_eq_true, if_false, hens]
    rw [if_pos hok]
    refine ⟨_, rfl, ?_, ?_⟩ <;>
      cases optTruthy (env.copyMessage c0).resultMsgId <;> rfl

/-- A gateway that accepts every call (fresh thread id 99, copied message
id 50). -/
def envOk : Env :=
  { adminStatus := none
    createThread := fun _ => (true, some 99)
    copyMessage := fun _ => { ok := true, description := none, resultMsgId := some 50 } }

/-- Topic 10 bound to user chat 555 and blocked. -/
def dBanned : MetaData :=
  { superGroupChatId := some 1
    topicToFromChat := [(10, 555)]
    fromChatToTopic := [(555, 10)]
    bannedTopics := ["10"]
    topicToComment := []
    fromChatToComment := [] }

def msgDemo : PrivateMsg := { chatId := 555, messageId := 7, replyToId := none }

theorem claim7_witness :
    ValidMeta dBanned ∧
      mapGet? dBanned.fromChatToTopic msgDemo.chatId = some 10 ∧
      isTopicBanned dBanned 10 = true ∧
      forwardPrivateToTopic 1 envOk msgDemo ⟨dBanned, [], 0, 0⟩
        = some (.blockedNotice, ⟨dBanned, [], 0, 0⟩) ∧
      ∃ st' : RelayState,
        forwardPrivateToTopic 1 envOk msgDemo
            ⟨markBan dBanned 10 false, [], 0, 0⟩ = some (.sent, st') ∧
        st'.copyCalls = 1 ∧ st'.createCalls = 0 := by
  have h := claim7_theorem envOk dBanned [] 0 0 msgDemo 10
    (by decide) rfl (by decide) (by decide)
  exact ⟨by decide, rfl, by decide, h.1 0, h.2 rfl 0⟩

/-! ## Claim C2: thread-invalid recovery retries without any bound -/

/-- The rejection every `copyMessage` call gets from the adversarial
gateway below. -/
def badResp : ApiResp :=
  { ok := false
    description := some "Bad Request: message thread not found"
    resultMsgId := none }

/-- A gateway that creates topics successfully (id 100) but rejects every
copy with a thread-invalid description — the "repeated thread-invalid
rejections" scenario of the claim. -/
def envBad : Env :=
  { adminStatus := none
    createThread := fun _ => (true, some 100)
    copyMessage := fun _ => badResp }

def msgBad : PrivateMsg := { chatId := 555, messageId := 7, replyToId := none }

def stBad : RelayState :=
  { meta :=
      { superGroupChatId := some (-100123)
        topicToFromChat := [(10, 555)]
        fromChatToTopic := [(555, 10)]
        bannedTopics := []
        topicToComment := []
        fromChatToComment := [] }
    kv := []
    copyCalls := 0
    createCalls := 0 }

theorem upsertMapping_bannedTopics (d : MetaData) (t u : Int)
    (c : Option String) :
    (upsertMapping d t u c).bannedTopics = d.bannedTopics := by
  unfold upsertMapping
  split <;> rfl

theorem removeMapping_bannedTopics (d : MetaData) (t : Int) :
    (removeMapping d t).bannedTopics
      = d.bannedTopics.erase (intToString t) := by
  unfold removeMapping
  cases optTruthy (mapGet? d.topicToFromChat t) <;> rfl

theorem trimGo_bannedTopics_nil (keys : List Int) :
    ∀ d : MetaData, d.bannedTopics = [] →
      (trimGo keys d).1.bannedTopics = [] := by
  induction keys with
  | nil =>
    intro d h
    rw [trimGo_nil]
    exact h
  | cons k rest ih =>
    intro d h
    simp only [trimGo]
    split
    · exact h
    · split
      · exact h
      · exact ih (removeMapping d k)
          (by rw [removeMapping_bannedTopics, h]; rfl)

theorem trimMetadataEntries_bannedTopics_nil (d : MetaData)
    (h : d.bannedTopics = []) :
    (trimMetadataEntries d).1.bannedTopics = [] :=
  trimGo_bannedTopics_nil _ d h

theorem forward_envBad_loop :
    ∀ (fuel : Nat) (st : RelayState), st.meta.bannedTopics = [] →
      forwardPrivateToTopic fuel envBad msgBad st = none := by
  intro fuel
  induction fuel with
  | zero => intro st _; rfl
  | succ fuel ih =>
    intro st hb
    have hcopy : ∀ n, envBad.copyMessage n = badResp := fun _ => rfl
    have hreply : msgBad.replyToId = none := rfl
    have hrok : badResp.ok = false := rfl
    have hthread : isThreadInvalidResp badResp = true := by decide
    simp only [forwardPrivateToTopic]
    have hban : (match optTruthy
          (mapGet? st.meta.fromChatToTopic msgBad.chatId) with
        | some t => isTopicBanned st.meta t
        | none => false) = false := by
      cases optTruthy (mapGet? st.meta.fromChatToTopic msgBad.chatId) with
      | none => rfl
      | some t =>
        show isTopicBanned st.meta t = false
        unfold isTopicBanned
        rw [hb]
        rfl
    rw [hban]
    simp only [Bool.false_eq_true, if_false]
    cases hget : optTruthy (mapGet? st.meta.fromChatToTopic msgBad.chatId) with
    | some t =>
      have hens : ensureTopic envBad st.meta msgBad.chatId st.createCalls
          = (.ok t, st.meta, 0) := by
        unfold ensureTopic
        rw [hget]
      rw [hens]
      simp only [hreply, hcopy, hrok, Bool.false_eq_true, if_false, hthread,
        if_true]
      apply ih
      show (trimMetadataEntries (removeMapping st.meta t)).1.bannedTopics = []
      apply trimMetadataEntries_bannedTopics_nil
      rw [removeMapping_bannedTopics, hb]
      rfl
    | none =>
      have hens : ensureTopic envBad st.meta msgBad.chatId st.createCalls
          = (.ok 100,
              (trimMetadataEntries
                (upsertMapping st.meta 100 msgBad.chatId none)).1, 1) := by
        unfold ensureTopic
        rw [hget]
        rfl
      rw [hens]
      simp only [hreply, hcopy, hrok, Bool.false_eq_true, if_false, hthread,
        if_true]
      apply ih
      show (trimMetadataEntries (removeMapping
        (trimMetadataEntries
          (upsertMapping st.meta 100 msgBad.chatId none)).1
        100)).1.bannedTopics = []
      apply trimMetadataEntries_bannedTopics_nil
      rw [removeMapping_bannedTopics]
      rw [trimMetadataEntries_bannedTopics_nil _
        (by rw [upsertMapping_bannedTopics]; exact hb)]
      rfl

/-- Claim C2 (refuted by the code, which contradicts its own "retry once"
comment): under repeated thread-invalid rejections the relay never
terminates — for EVERY recursion-depth bound the evaluation runs out of
fuel.  Each round removes the binding, purges the topic's links, persists,
creates a fresh topic and fails again, with no retry counter anywhere. -/
theorem claim2_theorem :
    ∀ fuel, forwardPrivateToTopic fuel envBad msgBad stBad = none :=
  fun fuel => forward_envBad_loop fuel stBad rfl

end Fivegram
